import Mathlib

/-!
Verification of the four-state multi-precision integer engine (4S-MPI) and the
parameter semantic resolver (PSR) of the `svdata` library.

The Lean definitions below are a shallow embedding of the Rust source:

* `src/sv_primlit_integral.rs` — the struct `SvPrimaryLiteralIntegral` and its
  operations (`lt`, `case_eq`, `cat`, `add_primlit`, `mult`, `negate`, `inv`,
  `lsl`, `lsr`, `ror`, `_truncate`, `_minimum_width`, and the helpers they use);
* `src/sv_port.rs` — `port_parameter_declaration_ansi` and the datatype /
  signedness resolution functions it calls.

Machine words (`usize`) are modelled as `Nat` with explicit `% 2 ^ 64`
wherever the Rust code wraps; the source's own doc comment fixes
`usize::BITS = 64` for all its test vectors, and we embed that word width.
Rust `Vec<usize>` becomes `List Nat` (little-endian, index 0 = least
significant word, as in the source).  Functions that can `panic!` (or that
hit an `unwrap` of an absent value / an arithmetic underflow on `usize`)
are modelled as `Option`-valued, `none` standing for the abort; helpers whose
panic guard is a pure precondition assertion that every call site in the
embedded code satisfies (`_matched_sign_extend`, `_matched_zero_extend`) are
embedded as total functions of their guarded branch, with the guard noted in
a comment.
-/

namespace SvData

/-- `2 ^ 64`, the modulus of a `usize` machine word. -/
def wordMod : Nat := 2 ^ 64

/-- Fuel-driven bit length: `bitLenAux fuel n` is the number of binary digits
of `n`, provided `n < 2 ^ fuel`. -/
def bitLenAux : Nat → Nat → Nat
  | 0, _ => 0
  | fuel + 1, n => if n = 0 then 0 else bitLenAux fuel (n / 2) + 1

/-- Bit length of a machine word (`64 - leading_zeros` in the Rust source). -/
def bitLen (n : Nat) : Nat := bitLenAux 64 n

/-- `usize::leading_zeros` of a 64-bit word. -/
def lz (n : Nat) : Nat := 64 - bitLen n

theorem bitLenAux_zero (fuel : Nat) : bitLenAux fuel 0 = 0 := by
  cases fuel <;> simp [bitLenAux]

theorem bitLenAux_spec : ∀ (fuel n : Nat), 0 < n → n < 2 ^ fuel →
    0 < bitLenAux fuel n ∧ 2 ^ (bitLenAux fuel n - 1) ≤ n ∧ n < 2 ^ bitLenAux fuel n := by
  intro fuel
  induction fuel with
  | zero => intro n h0 h1; simp at h1; omega
  | succ f ih =>
    intro n h0 h1
    unfold bitLenAux
    rw [if_neg (by omega)]
    by_cases hq : n / 2 = 0
    · have hn1 : n = 1 := by omega
      subst hn1
      simp [hq, bitLenAux_zero]
    · have hq0 : 0 < n / 2 := Nat.pos_of_ne_zero hq
      have hqlt : n / 2 < 2 ^ f := by
        have := Nat.div_lt_div_of_lt_of_dvd (by exact Dvd.intro _ rfl) h1
        omega
      obtain ⟨hpos, hlow, hhigh⟩ := ih (n / 2) hq0 hqlt
      refine ⟨by omega, ?_, ?_⟩
      · have : 2 ^ (bitLenAux f (n / 2) - 1 + 1) ≤ 2 * (n / 2) := by
          rw [pow_succ]
          omega
        have h2 : 2 * (n / 2) ≤ n := by omega
        have heq : bitLenAux f (n / 2) - 1 + 1 = bitLenAux f (n / 2) := by omega
        rw [heq] at this
        simpa using le_trans this h2
      · have : n < 2 * (n / 2) + 2 := by omega
        calc n < 2 * (n / 2) + 2 := this
          _ ≤ 2 * 2 ^ bitLenAux f (n / 2) := by omega
          _ = 2 ^ (bitLenAux f (n / 2) + 1) := by rw [pow_succ]; ring

theorem bitLen_spec {n : Nat} (h0 : 0 < n) (h1 : n < 2 ^ 64) :
    0 < bitLen n ∧ 2 ^ (bitLen n - 1) ≤ n ∧ n < 2 ^ bitLen n :=
  bitLenAux_spec 64 n h0 h1

theorem bitLen_zero : bitLen 0 = 0 := bitLenAux_zero 64

theorem bitLen_eq_zero_iff {n : Nat} (h1 : n < 2 ^ 64) : bitLen n = 0 ↔ n = 0 := by
  constructor
  · intro h
    by_contra hne
    have := bitLen_spec (Nat.pos_of_ne_zero hne) h1
    omega
  · intro h; subst h; exact bitLen_zero

theorem bitLen_le {n : Nat} (h1 : n < 2 ^ 64) : bitLen n ≤ 64 := by
  rcases Nat.eq_zero_or_pos n with h | h
  · subst h; simp [bitLen_zero]
  · obtain ⟨_, hlow, _⟩ := bitLen_spec h h1
    by_contra hgt
    have h64 : 64 ≤ bitLen n - 1 := by omega
    have : (2 : Nat) ^ 64 ≤ 2 ^ (bitLen n - 1) := Nat.pow_le_pow_right (by norm_num) h64
    omega

/-- `bitLen` is determined by the bounds `2 ^ (k-1) ≤ n < 2 ^ k`. -/
theorem bitLen_eq_of_bounds {n k : Nat} (hk : 0 < k) (hlow : 2 ^ (k - 1) ≤ n)
    (hhigh : n < 2 ^ k) (h64 : k ≤ 64) : bitLen n = k := by
  have hn0 : 0 < n := lt_of_lt_of_le (Nat.pos_pow_of_pos _ (by norm_num)) hlow
  have hn1 : n < 2 ^ 64 := lt_of_lt_of_le hhigh (Nat.pow_le_pow_right (by norm_num) h64)
  obtain ⟨hpos, hl, hh⟩ := bitLen_spec hn0 hn1
  by_contra hne
  rcases Nat.lt_or_ge (bitLen n) k with hlt | hge
  · have : bitLen n ≤ k - 1 := by omega
    have : (2:Nat) ^ bitLen n ≤ 2 ^ (k - 1) := Nat.pow_le_pow_right (by norm_num) this
    omega
  · have hgt : k < bitLen n := by omega
    have : k ≤ bitLen n - 1 := by omega
    have : (2:Nat) ^ k ≤ 2 ^ (bitLen n - 1) := Nat.pow_le_pow_right (by norm_num) this
    omega

/-- Little-endian word-vector value: index 0 is the least significant word. -/
def wordsVal : List Nat → Nat
  | [] => 0
  | w :: ws => w + 2 ^ 64 * wordsVal ws

theorem wordsVal_append (l r : List Nat) :
    wordsVal (l ++ r) = wordsVal l + 2 ^ (64 * l.length) * wordsVal r := by
  induction l with
  | nil => simp [wordsVal]
  | cons w ws ih =>
    have hc : (w :: ws) ++ r = w :: (ws ++ r) := rfl
    rw [hc]
    show w + 2 ^ 64 * wordsVal (ws ++ r) =
      wordsVal (w :: ws) + 2 ^ (64 * (w :: ws).length) * wordsVal r
    rw [ih]
    show _ = w + 2 ^ 64 * wordsVal ws + 2 ^ (64 * (ws.length + 1)) * wordsVal r
    have hp : 2 ^ (64 * (ws.length + 1)) = 2 ^ 64 * 2 ^ (64 * ws.length) := by
      rw [← pow_add]; ring_nf
    rw [hp]
    ring

theorem wordsVal_lt (l : List Nat) (hb : ∀ w ∈ l, w < 2 ^ 64) :
    wordsVal l < 2 ^ (64 * l.length) := by
  induction l with
  | nil => simp [wordsVal]
  | cons w ws ih =>
    have hw : w < 2 ^ 64 := hb w (by simp)
    have hws := ih (fun x hx => hb x (by simp [hx]))
    simp only [wordsVal, List.length_cons]
    have : 2 ^ (64 * (ws.length + 1)) = 2 ^ 64 * 2 ^ (64 * ws.length) := by
      rw [← pow_add]; ring_nf
    rw [this]
    calc w + 2 ^ 64 * wordsVal ws < 2 ^ 64 + 2 ^ 64 * wordsVal ws := by omega
      _ = 2 ^ 64 * (wordsVal ws + 1) := by ring
      _ ≤ 2 ^ 64 * 2 ^ (64 * ws.length) := by
          exact Nat.mul_le_mul_left _ (by omega)

theorem wordsVal_replicate_zero (k : Nat) : wordsVal (List.replicate k 0) = 0 := by
  induction k with
  | zero => simp [wordsVal]
  | succ n ih => simp [List.replicate_succ, wordsVal, ih]

theorem wordsVal_append_replicate_zero (l : List Nat) (k : Nat) :
    wordsVal (l ++ List.replicate k 0) = wordsVal l := by
  rw [wordsVal_append, wordsVal_replicate_zero]; ring

theorem wordsVal_eq_zero_iff (l : List Nat) :
    wordsVal l = 0 ↔ ∀ w ∈ l, w = 0 := by
  induction l with
  | nil => simp [wordsVal]
  | cons w ws ih =>
    simp only [wordsVal, List.mem_cons]
    constructor
    · intro h
      have hw : w = 0 := by omega
      have hws : wordsVal ws = 0 := by
        have h3 : 2 ^ 64 * wordsVal ws = 0 := by omega
        have h2 : (0:Nat) < 2 ^ 64 := by positivity
        rcases Nat.mul_eq_zero.mp h3 with h | h
        · omega
        · exact h
      exact fun x hx => hx.elim (fun h' => h' ▸ hw) (fun h' => (ih.mp hws) x h')
    · intro h
      have hw : w = 0 := h w (Or.inl rfl)
      have : wordsVal ws = 0 := ih.mpr (fun x hx => h x (Or.inr hx))
      simp [hw, this]

/-- The 4S-MPI value record (`pub struct SvPrimaryLiteralIntegral`). -/
structure SvPrimaryLiteralIntegral where
  data_01 : List Nat
  data_xz : Option (List Nat)
  size : Nat
  signed : Bool
deriving DecidableEq

abbrev Prim := SvPrimaryLiteralIntegral

/-- `is_4state`: whether `data_xz` is present. -/
def is_4state (v : Prim) : Bool := v.data_xz.isSome

/-- `contains_xz`: some word of `data_xz` has a set bit
(`leading_zeros != usize::BITS`, i.e. the word is nonzero). -/
def contains_xz (v : Prim) : Bool :=
  match v.data_xz with
  | none => false
  | some l => l.any (fun x => x != 0)

/-- `to_4state`: attach a `data_xz` of `[0]` padded with zero words up to the
length of `data_01` (the source pushes `data_01.len() - 1` zeros). -/
def to_4state (v : Prim) : Prim :=
  { v with data_xz := some (0 :: List.replicate (v.data_01.length - 1) 0) }

/-- `is_set_msb_01`: the bit at position `size - 1` (tested in the source by
comparing `leading_zeros` of the top word against
`usize::BITS - (size - (len - 1) * usize::BITS)`). -/
def is_set_msb_01 (v : Prim) : Bool :=
  lz (v.data_01.getLastD 0) == 64 - (v.size - (v.data_01.length - 1) * 64)

/-- `is_set_msb_xz`: same test on `data_xz`; `false` for a two-state value. -/
def is_set_msb_xz (v : Prim) : Bool :=
  match v.data_xz with
  | none => false
  | some l => lz (l.getLastD 0) == 64 - (v.size - (l.length - 1) * 64)

/-- Pad `data_01` (and `data_xz` when present) with `k` zero words. -/
def padWords (v : Prim) (k : Nat) : Prim :=
  { v with data_01 := v.data_01 ++ List.replicate k 0,
           data_xz := v.data_xz.map (fun l => l ++ List.replicate k 0) }

/-- `_primlit_vec_elmnt_match`: pad the shorter of the two `data_01` vectors
(and its `data_xz`, when present) with zero words.  Sizes are not updated. -/
def vecElmntMatch (a b : Prim) : Prim × Prim :=
  if a.data_01.length > b.data_01.length then
    (a, padWords b (a.data_01.length - b.data_01.length))
  else if a.data_01.length < b.data_01.length then
    (padWords a (b.data_01.length - a.data_01.length), b)
  else (a, b)

/-- `_matched_zero_extend`: element-match, then set both sizes to
`word_count * usize::BITS`.  The source panics when either operand is signed;
every embedded call site passes two unsigned operands, so the guard is
omitted here. -/
def matchedZeroExtend (a b : Prim) : Prim × Prim :=
  let (a1, b1) := vecElmntMatch a b
  ({ a1 with size := a1.data_01.length * 64 },
   { b1 with size := b1.data_01.length * 64 })

/-- The sign-replication loop of `_matched_sign_extend` / `_sign_extend`, on a
top-word-first list: every zero top word becomes all-ones, and the leading
zeros of the first nonzero word are filled with ones
(`w + Σ_{y < leading_zeros w} 2 ^ (63 - y) = w + (2 ^ 64 - 2 ^ bitLen w)`). -/
def fillOnesTF : List Nat → List Nat
  | [] => []
  | w :: rest =>
    (w + (2 ^ 64 - 2 ^ bitLen w)) :: (if w = 0 then fillOnesTF rest else rest)

/-- `is_negative` computed without going through `lt` (the Rust source defines
`is_negative` via `lt`, which itself calls `_matched_sign_extend`, which calls
`is_negative`; the recursion bottoms out with exactly this value — theorem
`is_negative_eq` below proves the two agree). -/
def isNegativeChk (v : Prim) : Bool :=
  !contains_xz v && v.signed && is_set_msb_01 v

/-- `_matched_sign_extend`: replicate each operand's sign (0/1/X/Z, read from
the MSBs of `data_01`/`data_xz` at `size - 1` before padding) across the
added high positions, equalise word counts, and set both sizes to
`word_count * usize::BITS`.  The source panics when either operand is
unsigned; every embedded call site passes two signed operands. -/
def matchedSignExtend (a b : Prim) : Prim × Prim :=
  let leftNeg := isNegativeChk a
  let rightNeg := isNegativeChk b
  let leftSignX := !is_set_msb_01 a && is_set_msb_xz a
  let rightSignX := !is_set_msb_01 b && is_set_msb_xz b
  let leftSignZ := is_set_msb_01 a && is_set_msb_xz a
  let rightSignZ := is_set_msb_01 b && is_set_msb_xz b
  let (a1, b1) := vecElmntMatch a b
  let a2 := if leftNeg || leftSignZ then
      { a1 with data_01 := (fillOnesTF a1.data_01.reverse).reverse } else a1
  let a3 := if leftSignZ || leftSignX then
      { a2 with data_xz := a2.data_xz.map (fun l => (fillOnesTF l.reverse).reverse) } else a2
  let b2 := if rightNeg || rightSignZ then
      { b1 with data_01 := (fillOnesTF b1.data_01.reverse).reverse } else b1
  let b3 := if rightSignZ || rightSignX then
      { b2 with data_xz := b2.data_xz.map (fun l => (fillOnesTF l.reverse).reverse) } else b2
  ({ a3 with size := a3.data_01.length * 64 },
   { b3 with size := b3.data_01.length * 64 })

/-- `bit1b_0()`. -/
def bit1b_0 : Prim := ⟨[0], none, 1, false⟩
/-- `bit1b_1()`. -/
def bit1b_1 : Prim := ⟨[1], none, 1, false⟩
/-- `logic1b_0()`. -/
def logic1b_0 : Prim := ⟨[0], some [0], 1, false⟩
/-- `logic1b_1()`. -/
def logic1b_1 : Prim := ⟨[1], some [0], 1, false⟩
/-- `logic1b_x()`. -/
def logic1b_x : Prim := ⟨[0], some [1], 1, false⟩

/-- The inner loop of `lt`: scan the matched word vectors (the source walks
from the most significant word down and returns 1 at the first position with
`left < right`; since that is the only exit, the scan order is immaterial). -/
def anyWordLt (l r : List Nat) : Bool :=
  (l.zip r).any (fun p => p.1 < p.2)

/-- The unsigned comparison path of `lt`: zero-extend to the same word count,
then the word scan. -/
def ltUnsigned (a b : Prim) : Prim :=
  let (a1, b1) := matchedZeroExtend a b
  if anyWordLt a1.data_01 b1.data_01 then logic1b_1 else logic1b_0

/-- The equal-signedness body of `lt` (the source reaches it after the X/Z
test and, on a signedness mismatch, one recursive call with both operands
re-marked unsigned). -/
def ltSameSign (a b : Prim) : Prim :=
  if a.signed then
    let lneg := is_set_msb_01 a
    let rneg := is_set_msb_01 b
    if lneg && !rneg then logic1b_1
    else if !lneg && rneg then logic1b_0
    else if lneg then
      let (a1, b1) := matchedSignExtend a b
      if anyWordLt a1.data_01 b1.data_01 then logic1b_1 else logic1b_0
    else ltUnsigned { a with signed := false } { b with signed := false }
  else ltUnsigned a b

/-- `lt` ("<", IEEE 1800-2017 §11.4.4). -/
def lt (a b : Prim) : Prim :=
  if contains_xz a || contains_xz b then logic1b_x
  else if a.signed != b.signed then
    ltSameSign { a with signed := false } { b with signed := false }
  else ltSameSign a b

/-- The signed one-bit zero that `is_negative` and `is_zero` compare with
(`bit1b_0()` with `signed = true`). -/
def signedZero : Prim := ⟨[0], none, 1, true⟩

/-- `is_negative(v) = (v.lt(signed zero) == logic1b_1())`. -/
def is_negative (v : Prim) : Bool := lt v signedZero == logic1b_1

/-- The equal-signedness body of `case_eq` (reached after at most one
recursive call that re-marks both operands unsigned). -/
def caseEqSameSign (a b : Prim) : Prim :=
  if contains_xz a != contains_xz b then bit1b_0
  else if contains_xz a && contains_xz b then
    let (a1, b1) := if a.signed then matchedSignExtend a b else matchedZeroExtend a b
    if a1.data_01 == b1.data_01 && a1.data_xz.getD [] == b1.data_xz.getD [] then bit1b_1
    else bit1b_0
  else
    let (a1, b1) := if a.signed then matchedSignExtend a b else matchedZeroExtend a b
    if a1.data_01 == b1.data_01 then bit1b_1 else bit1b_0

/-- `case_eq` ("===", IEEE 1800-2017 §11.4.5): two-state result. -/
def case_eq (a b : Prim) : Prim :=
  if a.signed != b.signed then
    caseEqSameSign { a with signed := false } { b with signed := false }
  else caseEqSameSign a b

/-- `is_zero(v) = (v.case_eq(signed zero) == bit1b_1())`. -/
def is_zero (v : Prim) : Bool := case_eq v signedZero == bit1b_1

/-- One pass of the word loop of `lsl`: each word is shifted left by one with
the previous word's MSB carried in (`leading_zeros == 0` sets the carry). -/
def shlWords : List Nat → Bool → List Nat × Bool
  | [], c => ([], c)
  | w :: ws, c =>
    let w' := w * 2 % 2 ^ 64 + (if c then 1 else 0)
    let c' := lz w == 0
    let p := shlWords ws c'
    (w' :: p.1, p.2)

/-- One shift of `lsl`: `size` grows by one; both lanes shift in lockstep and
a word is appended when the carry (of either lane) crosses the top word, or —
for a signed value — when the new size outgrows the backing words. -/
def lslStep (v : Prim) : Prim :=
  let p01 := shlWords v.data_01 false
  let d := p01.1
  let c1 := p01.2
  let pxz : Option (List Nat) × Bool :=
    match v.data_xz with
    | none => (none, false)
    | some l => let p := shlWords l false; (some p.1, p.2)
  let x := pxz.1
  let cxz := pxz.2
  let newSize := v.size + 1
  let d2xz2 : List Nat × Option (List Nat) :=
    if c1 && cxz then (d ++ [1], x.map (· ++ [1]))
    else if c1 then (d ++ [1], x.map (· ++ [0]))
    else if cxz then (d ++ [0], x.map (· ++ [1]))
    else if v.signed && newSize > 64 * d.length then (d ++ [0], x.map (· ++ [0]))
    else (d, x)
  { data_01 := d2xz2.1, data_xz := d2xz2.2, size := newSize, signed := v.signed }

/-- `lsl(v, n)`: `n` single shifts. -/
def lsl (v : Prim) : Nat → Prim
  | 0 => v
  | n + 1 => lslStep (lsl v n)

/-- One pass of the word loop of `lsr`, on a top-word-first list: each word is
shifted right by one with the previous (higher) word's bit 0 carried into the
MSB (`trailing_zeros == 0` sets the carry). -/
def shrWords : List Nat → Bool → List Nat × Bool
  | [], c => ([], c)
  | w :: ws, c =>
    let w' := w / 2 + (if c then 2 ^ 63 else 0)
    let c' := w % 2 == 1
    let p := shrWords ws c'
    (w' :: p.1, p.2)

/-- One shift of `lsr`: `size` is preserved. -/
def lsrStep (v : Prim) : Prim :=
  { v with data_01 := ((shrWords v.data_01.reverse false).1).reverse,
           data_xz := v.data_xz.map (fun l => ((shrWords l.reverse false).1).reverse) }

/-- `lsr(v, n)`. -/
def lsr (v : Prim) : Nat → Prim
  | 0 => v
  | n + 1 => lsrStep (lsr v n)

/-- One rotation of `ror`: the dropped bit 0 of each lane re-enters at
position `msb - 1` of the top word (`msb` and the top index are computed once,
from the value the rotation started from). -/
def rorStep (msb lastIndex : Nat) (v : Prim) : Prim :=
  let t01 := v.data_01.headD 0 % 2 == 1
  let txz := match v.data_xz with
    | none => false
    | some l => l.headD 0 % 2 == 1
  let v' := lsr v 1
  let d := if t01 then v'.data_01.set lastIndex (v'.data_01.getD lastIndex 0 + 2 ^ (msb - 1))
           else v'.data_01
  let x := if txz then
      v'.data_xz.map (fun l => l.set lastIndex (l.getD lastIndex 0 + 2 ^ (msb - 1)))
    else v'.data_xz
  { v' with data_01 := d, data_xz := x }

def rorAux (msb lastIndex : Nat) (v : Prim) : Nat → Prim
  | 0 => v
  | n + 1 => rorStep msb lastIndex (rorAux msb lastIndex v n)

/-- `ror(v, n)`: rotation within the current `size`. -/
def ror (v : Prim) (n : Nat) : Prim :=
  let lastIndex := v.data_01.length - 1
  let msb := if v.size % 64 == 0 then 64 else v.size % 64
  rorAux msb lastIndex v n

/-- One iteration of `inv`'s loop: conditionally flip the declared MSB of the
top word (skipping positions marked X/Z in `data_xz`), then rotate right. -/
def invStep (feb rem lastIndex : Nat) (v : Prim) : Prim :=
  let topXzSet := match v.data_xz with
    | none => false
    | some l => lz (l.getD lastIndex 0) == rem
  let w := v.data_01.getD lastIndex 0
  let d :=
    if topXzSet then
      (if lz w == rem then v.data_01.set lastIndex (w - 2 ^ (feb - 1)) else v.data_01)
    else if lz w == rem then v.data_01.set lastIndex (w - 2 ^ (feb - 1))
    else v.data_01.set lastIndex (w + 2 ^ (feb - 1))
  ror { v with data_01 := d } 1

def invAux (feb rem lastIndex : Nat) (v : Prim) : Nat → Prim
  | 0 => v
  | n + 1 => invStep feb rem lastIndex (invAux feb rem lastIndex v n)

/-- `inv(v)`: per-bit flip of `data_01` with `data_xz` positions preserved,
implemented (as in the source) by `size` flip-and-rotate passes. -/
def inv (v : Prim) : Prim :=
  let feb := if v.size % 64 == 0 then 64 else v.size % 64
  let rem := 64 - feb
  let lastIndex := v.data_01.length - 1
  invAux feb rem lastIndex v v.size

/-- The word loop of `_unsigned_primlit_add`: pairwise wrapping add; the carry
is re-detected from `new >= left && new >= right` exactly as in the source. -/
def addWords : List Nat → List Nat → Bool → List Nat × Bool
  | [], _, c => ([], c)
  | _ :: _, [], c => ([], c)
  | l :: ls, r :: rs, c =>
    let s0 := (l + r) % 2 ^ 64
    let s1 := if c then (s0 + 1) % 2 ^ 64 else s0
    let c' := !(decide (l ≤ s1) && decide (r ≤ s1))
    let p := addWords ls rs c'
    (s1 :: p.1, p.2)

/-- `_unsigned_primlit_add`: element-match, word-wise wrapping add with carry,
and a final `push(1)` when the top carry survives.  `size` is not touched. -/
def unsignedPrimlitAdd (a b : Prim) : Prim :=
  let (a1, b1) := vecElmntMatch a b
  let p := addWords a1.data_01 b1.data_01 false
  { a1 with data_01 := if p.2 then p.1 ++ [1] else p.1 }

/-- `cat(a, b)`: shift `a` left by `b.size`, add `b` unsigned, combined width
`a.size + b.size`; the X/Z lanes are combined the same way.  When exactly one
operand is four-state the source unwraps the other operand's absent `data_xz`
and panics (`none` here). -/
def cat (a b : Prim) : Option Prim :=
  let ret0 := lsl a b.size
  if is_4state ret0 || is_4state b then
    match ret0.data_xz, b.data_xz with
    | some lxz, some rxz =>
      let leftXz : Prim := ⟨lxz, none, ret0.size, false⟩
      let rightXz : Prim := ⟨rxz, none, b.size, false⟩
      let sumXz := unsignedPrimlitAdd leftXz rightXz
      let ret1 := unsignedPrimlitAdd ret0 b
      some { ret1 with size := a.size + b.size, data_xz := some sumXz.data_01 }
    | _, _ => none
  else
    let ret1 := unsignedPrimlitAdd ret0 b
    some { ret1 with size := a.size + b.size, data_xz := ret0.data_xz }

/-- Remove `k` top words (`Vec::remove` of the last index, `k` times). -/
def dropLastN (l : List Nat) (k : Nat) : List Nat := l.take (l.length - k)

/-- The bit-masking loop of `_truncate`: `x` runs from 64 down over `cnt`
iterations, clearing bit `x - 1` of the word whenever it is the leading set
bit (`leading_zeros == 64 - x`, i.e. `bitLen w = x`). -/
def maskIter : Nat → Nat → Nat → Nat
  | _, 0, w => w
  | x, cnt + 1, w => maskIter (x - 1) cnt (if bitLen w == x then w - 2 ^ (x - 1) else w)

/-- The per-lane body of `_truncate`: drop the top words beyond the requested
width and mask the now-top word. -/
def truncateLane (n : Nat) (l : List Nat) : List Nat :=
  let elm := if n % 64 == 0 then l.length - n / 64 else l.length - n / 64 - 1
  let bitsRm := if n % 64 == 0 then 0 else 64 - n % 64
  let d := dropLastN l elm
  if bitsRm ≠ 0 then d.dropLast ++ [maskIter 64 bitsRm (d.getLastD 0)] else d

/-- `_truncate(v, n)`: panics (`none`) when `n = 0` or `n > size`; otherwise
truncates both lanes and sets `size := n`. -/
def truncatePrim (v : Prim) (n : Nat) : Option Prim :=
  if n = 0 then none
  else if v.size ≥ n then
    some { v with data_01 := truncateLane n v.data_01,
                  data_xz := v.data_xz.map (truncateLane n),
                  size := n }
  else none

/-- The top-zero-word removal loop of `_minimum_width`: `len` iterations, each
removing the current last word when it is zero.  (With an empty list the Rust
index would underflow; the loop itself never reaches that state — at most one
word is removed per iteration — so the default below is never consulted on
the paths the source can take.) -/
def dropTopZeroWords : Nat → List Nat → List Nat
  | 0, l => l
  | k + 1, l => if l.getLastD 1 == 0 then dropTopZeroWords k l.dropLast else dropTopZeroWords k l

/-- `Vec::remove(i)` repeated `k` times at the fixed index `i` (the
`data_xz`-shrink loop at the end of `_minimum_width` removes at index
`data_01.len() - 1`). -/
def eraseRep : Nat → Nat → List Nat → List Nat
  | 0, _, l => l
  | k + 1, i, l => eraseRep k i (l.eraseIdx i)

/-- The `data_xz` shrink at the end of `_minimum_width`. -/
def shrinkXz (v : Prim) : Prim :=
  match v.data_xz with
  | none => v
  | some xs =>
    if v.data_01.length < xs.length then
      { v with data_xz := some (eraseRep (xs.length - v.data_01.length) (v.data_01.length - 1) xs) }
    else v

/-- The inner `while` of `_minimum_width`'s negative branch, acting on one
word.  `stop` is `x == 0 || data_01[x-1].leading_zeros() != 0`.  Returns the
updated word, the updated size, and `true` for the `min_num_found` break
(`false` when the word was zeroed, to be removed, with the scan moving on).
A zero word would make the source's `usize::BITS - pre_leading - 1`
underflow (panic); fuel exhaustion cannot happen for words below `2 ^ 64`
(each looping step lowers `bitLen` by exactly one). -/
def stripWord : Nat → Nat → Nat → Bool → Option (Nat × Nat × Bool)
  | 0, _, _, _ => none
  | fuel + 1, w, s, stop =>
    if w = 0 then none
    else
      let pre := lz w
      let m := w - 2 ^ (64 - pre - 1)
      let post := lz m
      if post == 64 && stop then some (w, s, true)
      else if post != pre + 1 then some (w, s, true)
      else if post == 64 then some (m, s - 1, false)
      else stripWord fuel m (s - 1) stop

/-- The outer word scan of `_minimum_width`'s negative branch, on a
top-word-first list.  A word zeroed by `stripWord` is counted in
`vec_elements_to_rm` and removed at the end of the branch; dropping it here as
the scan passes is the same net effect. -/
def negStrip : List Nat → Nat → Option (List Nat × Nat)
  | [], s => some ([], s)
  | w :: rest, s =>
    let stop := rest.isEmpty || !(lz (rest.headD 0) == 0)
    match stripWord 65 w s stop with
    | none => none
    | some (w', s', true) => some (w' :: rest, s')
    | some (_, s', false) => negStrip rest s'

/-- `_minimum_width(v)`: canonicalise to the fewest bits.  The branch on an
all-zero `data_01` with X/Z bits present (not `is_zero`, yet nothing left
after dropping zero words) indexes an empty vector in the source — `none`. -/
def minimumWidth (v : Prim) : Option Prim :=
  if v.signed = false then
    if is_zero v then some (shrinkXz { v with data_01 := [0], size := 1 })
    else
      match dropTopZeroWords v.data_01.length v.data_01 with
      | [] => none
      | l =>
        some (shrinkXz
          { v with data_01 := l, size := (64 - lz (l.getLastD 0)) + (l.length - 1) * 64 })
  else
    if is_negative v then
      match negStrip v.data_01.reverse v.size with
      | none => none
      | some (tf, s') => some (shrinkXz { v with data_01 := tf.reverse, size := s' })
    else if is_zero v then some (shrinkXz { v with data_01 := [0], size := 1 })
    else
      match dropTopZeroWords v.data_01.length v.data_01 with
      | [] => none
      | l =>
        let l' := if lz (l.getLastD 0) == 0 then l ++ [0] else l
        some (shrinkXz
          { v with data_01 := l',
                   size := (64 - lz (l'.getLastD 0) + 1) + (l'.length - 1) * 64 })

/-- `usize_to_primlit`: wrap a host word into a signed 64-bit value and
canonicalise. -/
def usizeToPrimlit (value : Nat) : Option Prim :=
  minimumWidth ⟨[value], none, 64, true⟩

/-- `ret.data_xz = ret.to_4state().data_xz` — re-pad the X/Z lane to the
`data_01` word count (used after arithmetic that grew only `data_01`). -/
def fix4state (r : Prim) : Prim :=
  if is_4state r then { r with data_xz := (to_4state r).data_xz } else r

/-- Promote one operand to four-state when the other is (shared prologue of
`add_primlit` and `mult`). -/
def promotePair (a b : Prim) : Prim × Prim :=
  if is_4state a != is_4state b then
    if !is_4state a then (to_4state a, b) else (a, to_4state b)
  else (a, b)

/-- The X-filling cat loop of the poisoned paths of `add_primlit`/`mult`. -/
def catLoop : Nat → Prim → Prim → Option Prim
  | 0, _, acc => some acc
  | k + 1, xp, acc =>
    match cat acc xp with
    | none => none
    | some acc' => catLoop k xp acc'

/-- `add_primlit(a, b)` (IEEE addition): fast path when neither operand has
X/Z, poisoned all-X path otherwise.  Result width `max(size) + 1`. -/
def addPrimlit (a b : Prim) : Option Prim :=
  let (a1, b1) := promotePair a b
  if !contains_xz a1 && !contains_xz b1 then
    let finalNumBits := if a1.size > b1.size then a1.size + 1 else b1.size + 1
    let elmntsSignExtension :=
      if a1.size > b1.size then a1.data_01.length + 1 else b1.data_01.length + 1
    let pair : Prim × Prim :=
      if a1.signed = false || b1.signed = false then ({ a1 with signed := false }, b1)
      else
        let matched : Prim :=
          ⟨0 :: List.replicate (elmntsSignExtension - 1) 0, none,
            elmntsSignExtension * 64, true⟩
        let pa := matchedSignExtend a1 matched
        let pb := matchedSignExtend b1 pa.2
        (pa.1, pb.1)
    let r0 := unsignedPrimlitAdd pair.1 pair.2
    if r0.signed then
      match truncatePrim r0 finalNumBits with
      | none => none
      | some r1 => some (fix4state r1)
    else
      let d1 := if r0.data_01.length * 64 < finalNumBits then r0.data_01 ++ [0] else r0.data_01
      let r1 := { r0 with size := finalNumBits, data_01 := d1 }
      some (fix4state r1)
  else
    let retSize := if a1.size < b1.size then b1.size else a1.size
    let finalNumBits := retSize + 1
    let sgn := !(a1.signed = false || b1.signed = false)
    let x0 : Prim := ⟨[0], some [1], 1, sgn⟩
    catLoop (finalNumBits - 1) x0 x0

/-- `negate(v)`: `inv(v) + 1` for signed values; returns the operand early
when it is zero, panics (`none`) on a nonzero unsigned operand. -/
def negate (v : Prim) : Option Prim :=
  if is_zero v then some v
  else if v.signed = false then none
  else
    let fromNeg := is_negative v
    let r1 := inv v
    match usizeToPrimlit 1 with
    | none => none
    | some one =>
      match addPrimlit r1 one with
      | none => none
      | some r2 =>
        let lastIndex := r2.data_01.length - 1
        let top := r2.data_01.getLastD 0
        let r3 :=
          if fromNeg then
            { r2 with size := (64 - lz top + 1) + lastIndex * 64,
                      data_01 := if lz top == 0 then r2.data_01 ++ [0] else r2.data_01 }
          else { r2 with size := (64 - lz top) + lastIndex * 64 }
        match minimumWidth r3 with
        | none => none
        | some r4 => some (fix4state r4)

/-- The scan of `mul_unsigned` building the list of shifted addends (`x` is
the loop index; the first iteration pushes `left` unshifted). -/
def mulScanAux : Nat → Nat → Prim → Prim → List Prim → List Prim
  | 0, _, _, _, acc => acc
  | k + 1, x, leftNu, rightNu, acc =>
    let bitSet := rightNu.data_01.headD 0 % 2 == 1
    let next : Prim × List Prim :=
      if bitSet then
        if x = 0 then (leftNu, acc ++ [leftNu])
        else
          let l' := lsl leftNu 1
          (l', acc ++ [l'])
      else if x ≠ 0 then (lsl leftNu 1, acc)
      else (leftNu, acc)
    mulScanAux k (x + 1) next.1 (lsr rightNu 1) next.2

/-- The accumulation loop of `mul_unsigned`. -/
def sumFold : List Prim → Prim → Option Prim
  | [], acc => some acc
  | v :: vs, acc =>
    match addPrimlit acc v with
    | none => none
    | some acc' => sumFold vs acc'

/-- `mul_unsigned(a, b)`: shift-and-add over the bits of `b`. -/
def mulUnsigned (a b : Prim) : Option Prim :=
  let addVer := mulScanAux b.size 0 a b []
  sumFold addVer ⟨[0], none, 1, false⟩

/-- `mult(a, b)` (IEEE multiplication): fast shift-and-add path when neither
operand has X/Z (sign-extending both first when both are signed), poisoned
all-X path otherwise.  Result width `a.size + b.size`.  In the poisoned path
with `final_num_bits = 0` the source's `0..(final_num_bits - 1)` range
underflows (`none`). -/
def mult (a b : Prim) : Option Prim :=
  let (a1, b1) := promotePair a b
  let finalNumBits := a1.size + b1.size
  let elmntsSignExtension := a1.data_01.length + b1.data_01.length
  if !contains_xz a1 && !contains_xz b1 then
    let pair : Prim × Prim :=
      if a1.signed && b1.signed then
        let matched : Prim :=
          ⟨0 :: List.replicate (elmntsSignExtension - 1) 0, none,
            elmntsSignExtension * 64, true⟩
        let pa := matchedSignExtend a1 matched
        let pb := matchedSignExtend b1 pa.2
        (pa.1, pb.1)
      else (a1, b1)
    match mulUnsigned pair.1 pair.2 with
    | none => none
    | some r0 =>
      let step1 : Option Prim :=
        if r0.size > finalNumBits then truncatePrim r0 finalNumBits
        else some { r0 with size := finalNumBits }
      match step1 with
      | none => none
      | some r1 => some (fix4state { r1 with signed := pair.1.signed && pair.2.signed })
  else
    let sgn := !(a1.signed = false || b1.signed = false)
    let x0 : Prim := ⟨[0], some [1], 1, sgn⟩
    if finalNumBits = 0 then none
    else catLoop (finalNumBits - 1) x0 x0

/-! ## Parameter semantic resolver (`src/sv_port.rs`)

The resolver walks an externally produced syntax tree.  The embedding
abstracts each syntax node into the record of exactly those queries the
resolver performs on it (`unwrap_node!` hits, extracted keyword/symbol/token
strings); every `match` below mirrors the corresponding Rust `match`. -/

/-- `SvSignedness` (structures.rs). -/
inductive SvSignedness where
  | Signed | Unsigned | Unsupported | IMPLICIT
deriving DecidableEq

/-- `SvParamType`. -/
inductive SvParamType where
  | Parameter | LocalParam
deriving DecidableEq

/-- `SvDataType`. -/
inductive SvDataType where
  | Logic | Reg | Bit | Byte | Integer | Int | Shortint | Longint | Time
  | Real | Shortreal | Realtime | Array | Enum | Struct | Union | Class
  | TypeRef | String | Unsupported | IMPLICIT
deriving DecidableEq

/-- An apostrophe character (the lead character of a SystemVerilog base
token such as the signed binary base). -/
def apos : Char := Char.ofNat 39

/-- The base token spelling a signed binary base. -/
def sbTok : String := String.mk [apos, Char.ofNat 115, Char.ofNat 98]
/-- The base token spelling a signed hex base. -/
def shTok : String := String.mk [apos, Char.ofNat 115, Char.ofNat 104]
/-- The base token spelling a signed octal base. -/
def soTok : String := String.mk [apos, Char.ofNat 115, Char.ofNat 111]
/-- The base token spelling a signed decimal base. -/
def sdTok : String := String.mk [apos, Char.ofNat 115, Char.ofNat 100]

/-- Outcome of `unwrap_node!(common, IntegerVectorType, IntegerAtomType,
NonIntegerType, ClassType, TypeReference)`. -/
inductive CommonTypeNode where
  | logicT | regT | bitT | byteT | shortintT | intT | longintT | integerT
  | timeT | shortrealT | realtimeT | realT | classT | typeRefT
deriving DecidableEq

/-- Outcome of `unwrap_node!(common, Signing)`. -/
inductive SigningNode where
  | signedKw | unsignedKw
deriving DecidableEq

/-- Outcome of `unwrap_node!(p, Number, TimeLiteral, UnbasedUnsizedLiteral,
StringLiteral)` with the `Number` sub-kind split out. -/
inductive ImplicitLitKind where
  | integralNumber | realNumber | timeLiteral | unbasedUnsized | stringLiteral
deriving DecidableEq

/-- Base-node kinds matched in `port_parameter_signedness_ansi`. -/
inductive BaseNodeKind where
  | binaryBase | hexBase | octalBase | decimalBase
deriving DecidableEq

/-- Outcome of `unwrap_node!(p, DecimalNumber, BinaryNumber, HexNumber,
OctalNumber, UnbasedUnsizedLiteral)`; for the base-carrying kinds, the
nested `unwrap_node!(.., BinaryBase, HexBase, OctalBase, DecimalBase)` and
its token text. -/
inductive IntLitNode where
  | unbasedUnsized
  | decimalUnsigned
  | other (base : Option BaseNodeKind) (baseToken : String)
deriving DecidableEq

/-- Base kinds matched by the subtree scan of
`parameter_signedness_resolver_ansi`. -/
inductive ScanBase where
  | binaryBase | hexBase | octalBase | decimalNumberBaseUnsigned
deriving DecidableEq

/-- What the scan sees inside one integral-number node:
`unwrap_node!(sub, BinaryNumber, HexNumber, OctalNumber)` and, when matched,
the base node with its token. -/
inductive ScanIntegral where
  | noBHO
  | bho (base : Option (ScanBase × String))
deriving DecidableEq

/-- One event of the subtree iteration in
`parameter_signedness_resolver_ansi`. -/
inductive ScanEvent where
  | integralNumber (info : ScanIntegral)
  | realNumber
  | timeLiteral
  | unbasedUnsized
  | binaryOperator (symbol : String)
  | otherNode
deriving DecidableEq

/-- The queries `port_parameter_*_ansi` perform on the common-data subtree. -/
structure CommonDataNode where
  /-- `unwrap_node!(common, IntegerVectorType, …, TypeReference)`. -/
  typeNode : Option CommonTypeNode
  /-- `unwrap_node!(common, DataType)` paired with `keyword(..)` on the hit. -/
  dataTypeKeyword : Option (Option String)
  /-- `unwrap_node!(common, Signing)`. -/
  signing : Option SigningNode
  /-- `unwrap_node!(common, ClassIdentifier)` with its identifier text. -/
  classIdentifier : Option String
  /-- `port_packeddim_ansi` on the common data. -/
  packedDimensions : List (String × String)
deriving DecidableEq

/-- The queries `port_parameter_*_ansi` perform on the `ParamAssignment`. -/
structure ParamAssignmentNode where
  /-- `identifier(unwrap_node!(p, ParameterIdentifier))`. -/
  identifier : String
  /-- `unwrap_node!(p, ConstantParamExpression)` present
  (`port_parameter_check_default_ansi`). -/
  foundAssignment : Bool
  /-- `unwrap_node!(p, ConstantFunctionCall, BinaryOperator,
  ConstantConcatenation, ConditionalExpression)` present
  (`parameter_resolver_needed_ansi`). -/
  resolverNeeded : Bool
  /-- `unwrap_node!(p, BinaryOperator)` present. -/
  hasBinaryOperator : Bool
  /-- see `ImplicitLitKind`. -/
  implicitLit : Option ImplicitLitKind
  /-- a `RealNumber` node occurs in the subtree. -/
  hasRealNumber : Bool
  /-- an `IntegralNumber` node occurs in the subtree. -/
  hasIntegralNumber : Bool
  /-- see `IntLitNode`. -/
  intLit : Option IntLitNode
  /-- the node sequence seen by `parameter_signedness_resolver_ansi`. -/
  scanEvents : List ScanEvent
  /-- `get_string` of the `ConstantParamExpression`. -/
  expressionText : Option String
  /-- `port_unpackeddim_ansi` on the parameter node. -/
  unpackedDimensions : List (String × Option String)
  /-- `get_comment` on the parameter node. -/
  commentText : Option (List String)
  /-- `port_parameter_bits_ansi` — the bit-count computation is orthogonal to
  the claims settled here and is carried through as a node feature. -/
  numBitsFeature : Option Nat
deriving DecidableEq

/-- `SvParameter` (structures.rs). -/
structure SvParameter where
  identifier : String
  expression : Option String
  paramtype : SvParamType
  datatype : Option SvDataType
  datatype_overridable : Bool
  classid : Option String
  signedness : Option SvSignedness
  signedness_overridable : Bool
  num_bits : Option Nat
  packed_dimensions : List (String × String)
  unpacked_dimensions : List (String × Option String)
  comment : Option (List String)
deriving DecidableEq

/-- `parameter_datatype_resolver_ansi`: dispatch on the top literal.  (The
nested `unwrap_node!(.., RealNumber, IntegralNumber)` is abstracted by the
two presence flags, real checked first.) -/
def parameterDatatypeResolverAnsi (p : ParamAssignmentNode) : SvDataType :=
  match p.implicitLit with
  | some .integralNumber => if p.hasRealNumber then .Real else .Logic
  | some .realNumber => .Real
  | some .timeLiteral =>
      if p.hasRealNumber then .Real
      else if p.hasIntegralNumber then .Logic else .Time
  | some .unbasedUnsized =>
      if p.hasRealNumber then .Real
      else if p.hasIntegralNumber then .Logic else .Bit
  | some .stringLiteral => .String
  | none => .Unsupported

/-- The scan loop of `parameter_signedness_resolver_ansi` (initial running
value `Signed`; each arm can lower it or break). -/
def signednessScan : List ScanEvent → Option SvSignedness → Option SvSignedness
  | [], ret => ret
  | ev :: rest, ret =>
    match ev with
    | .integralNumber info =>
      match info with
      | .noBHO => signednessScan rest ret
      | .bho none => some .Unsupported
      | .bho (some (base, tok)) =>
        match base with
        | .binaryBase =>
            if tok != sbTok then some .Unsigned else signednessScan rest ret
        | .hexBase =>
            if tok != shTok then some .Unsigned else signednessScan rest ret
        | .octalBase =>
            if tok != soTok then some .Unsigned else signednessScan rest ret
        | .decimalNumberBaseUnsigned =>
            if tok != sdTok then some .Unsigned else signednessScan rest ret
    | .realNumber => none
    | .timeLiteral => some .Unsigned
    | .unbasedUnsized => some .Unsigned
    | .binaryOperator sym =>
        if sym ∈ (["&", "~&", "|", "~|", "^", "~^", "<", "<=", ">", ">=", "==", "=!"] : List String)
        then some .Unsigned
        else signednessScan rest ret
    | .otherNode => signednessScan rest ret

/-- `parameter_signedness_resolver_ansi`. -/
def parameterSignednessResolverAnsi (p : ParamAssignmentNode)
    (datatype : Option SvDataType) : Option SvSignedness :=
  match datatype with
  | some .String => none
  | _ => signednessScan p.scanEvents (some .Signed)

/-- `port_parameter_datatype_ansi`.  `none` models the `unreachable!()` hit
when the common data carries a `DataType` whose keyword is not `string`. -/
def portParameterDatatypeAnsi (commonData : Option CommonDataNode)
    (p : ParamAssignmentNode) (foundAssignment : Bool) (paramType : SvParamType) :
    Option (Option SvDataType × Bool) :=
  let ret0 : Option SvDataType × Bool :=
    match paramType with
    | .Parameter => (none, true)
    | .LocalParam => (some .Logic, false)
  let datatype : Option CommonTypeNode := commonData.bind (·.typeNode)
  match datatype with
  | some .logicT => some (some .Logic, false)
  | some .regT => some (some .Reg, false)
  | some .bitT => some (some .Bit, false)
  | some .byteT => some (some .Byte, false)
  | some .shortintT => some (some .Shortint, false)
  | some .intT => some (some .Int, false)
  | some .longintT => some (some .Longint, false)
  | some .integerT => some (some .Integer, false)
  | some .timeT => some (some .Time, false)
  | some .shortrealT => some (some .Shortreal, false)
  | some .realtimeT => some (some .Realtime, false)
  | some .realT => some (some .Real, false)
  | some .classT => some (some .Class, false)
  | some .typeRefT => some (some .TypeRef, false)
  | none =>
    let afterKeyword : Option (Option (Option SvDataType × Bool)) :=
      match commonData with
      | some c =>
        match c.dataTypeKeyword with
        | some (some s) => if s = "string" then some (some (some .String, false)) else some none
        | some none => some none
        | none => none
      | none => none
    match afterKeyword with
    | some r => r
    | none =>
      if foundAssignment then
        if p.resolverNeeded then
          if p.hasBinaryOperator then some (some (parameterDatatypeResolverAnsi p), true)
          else some (some .Unsupported, true)
        else
          match p.implicitLit with
          | some .unbasedUnsized => some (some .Logic, true)
          | some .integralNumber => some (some .Logic, true)
          | some .realNumber => some (some .Real, true)
          | some .timeLiteral => some (some .Time, true)
          | some .stringLiteral => some (some .String, true)
          | none => some (some .Unsupported, true)
      else some ret0

/-- `port_parameter_signedness_ansi`.  `none` models the panic on
`integral_type.unwrap()` when the Logic literal inspection finds none of
`DecimalNumber/BinaryNumber/HexNumber/OctalNumber/UnbasedUnsizedLiteral`. -/
def portParameterSignednessAnsi (m : Option CommonDataNode)
    (p : ParamAssignmentNode) (datatype : Option SvDataType)
    (foundAssignment : Bool) (datatypeOverridable : Bool) :
    Option (Option SvSignedness × Bool) :=
  let fromSigning : Option (Option SvSignedness × Bool) :=
    match m with
    | some c =>
      match c.signing with
      | some .signedKw => some (some .Signed, false)
      | some .unsignedKw => some (some .Unsigned, false)
      | none => none
    | none => none
  match fromSigning with
  | some r => some r
  | none =>
    match datatype with
    | some .Class => some (none, datatypeOverridable)
    | some .String => some (none, datatypeOverridable)
    | some .Real => some (none, datatypeOverridable)
    | some .Shortint => some (some .Signed, true)
    | some .Int => some (some .Signed, true)
    | some .Longint => some (some .Signed, true)
    | some .Byte => some (some .Signed, true)
    | some .Integer => some (some .Signed, true)
    | some .Logic =>
      if !datatypeOverridable || !foundAssignment then some (some .Unsigned, true)
      else if p.resolverNeeded then
        if p.hasBinaryOperator then
          some (parameterSignednessResolverAnsi p datatype, true)
        else some (some .Unsupported, true)
      else
        match p.intLit with
        | some .unbasedUnsized => some (some .Unsigned, true)
        | some .decimalUnsigned => some (some .Signed, true)
        | some (.other base tok) =>
          match base with
          | none => some (some .Unsupported, true)
          | some .binaryBase =>
              some (if tok = sbTok then (some .Signed, true) else (some .Unsigned, true))
          | some .hexBase =>
              some (if tok = shTok then (some .Signed, true) else (some .Unsigned, true))
          | some .octalBase =>
              some (if tok = soTok then (some .Signed, true) else (some .Unsigned, true))
          | some .decimalBase =>
              some (if tok = sdTok then (some .Signed, true) else (some .Unsigned, false))
        | none => none
    | some .Unsupported => some (some .Unsupported, true)
    | none => some (none, true)
    | _ => some (some .Unsigned, true)

/-- `port_parameter_classid_ansi`: only a Class datatype reads the class
identifier (`none` models the `unwrap`/`unreachable!()` on a missing one). -/
def portParameterClassidAnsi (m : Option CommonDataNode)
    (datatype : Option SvDataType) : Option (Option String) :=
  match datatype with
  | some .Class =>
    match m with
    | none => none
    | some c =>
      match c.classIdentifier with
      | some id => some (some id)
      | none => none
  | _ => some none

/-- `port_parameter_value_ansi`. -/
def portParameterValueAnsi (p : ParamAssignmentNode) (foundAssignment : Bool) :
    Option String :=
  if !foundAssignment then none else p.expressionText

/-- `port_parameter_syntax_ansi`: the three contract panics (`none`). -/
def portParameterSyntaxAnsi (datatype : Option SvDataType)
    (signedness : Option SvSignedness) (packedDimensions : List (String × String))
    (paramType : SvParamType) (foundAssignment : Bool) : Option Unit :=
  if !packedDimensions.isEmpty &&
      (datatype = some .Integer || datatype = some .Real ||
       datatype = some .String || datatype = some .Time) then none
  else if (signedness = some .Signed || signedness = some .Unsigned) &&
      (datatype = some .Real || datatype = some .String) then none
  else if paramType = .LocalParam && foundAssignment = false then none
  else some ()

/-- `port_parameter_declaration_ansi`: assemble the `SvParameter` record. -/
def portParameterDeclarationAnsi (p : ParamAssignmentNode)
    (commonData : Option CommonDataNode) (paramType : SvParamType) :
    Option SvParameter :=
  let foundAssignment := p.foundAssignment
  match portParameterDatatypeAnsi commonData p foundAssignment paramType with
  | none => none
  | some (paramDatatype, paramExplicitDatatype) =>
    match portParameterSignednessAnsi commonData p paramDatatype foundAssignment
        paramExplicitDatatype with
    | none => none
    | some (paramSignedness, paramExplicitSignedness) =>
      let paramPackeddim : List (String × String) :=
        match commonData with
        | some c => c.packedDimensions
        | none => []
      let isParam : Bool :=
        match paramType with
        | .LocalParam => false
        | .Parameter => true
      match portParameterClassidAnsi commonData paramDatatype with
      | none => none
      | some classid =>
        let ret : SvParameter :=
          { identifier := p.identifier
            expression := portParameterValueAnsi p foundAssignment
            paramtype := paramType
            datatype := paramDatatype
            datatype_overridable := paramExplicitDatatype && isParam
            classid := classid
            signedness := paramSignedness
            signedness_overridable := paramExplicitSignedness && isParam
            num_bits := p.numBitsFeature
            packed_dimensions := paramPackeddim
            unpacked_dimensions := p.unpackedDimensions
            comment := p.commentText }
        match portParameterSyntaxAnsi ret.datatype ret.signedness ret.packed_dimensions
            paramType foundAssignment with
        | none => none
        | some _ => some ret

/-! ## Invariants and bit accessors -/

/-- The `data_xz` part of the at-rest invariants. -/
def wfXzPart : Option (List Nat) → Nat → Nat → Prop
  | none, _, _ => True
  | some xs, len01, size =>
    xs.length = len01 ∧ (∀ w ∈ xs, w < 2 ^ 64) ∧ wordsVal xs < 2 ^ size

instance (o : Option (List Nat)) (n s : Nat) : Decidable (wfXzPart o n s) :=
  match o with
  | none => .isTrue trivial
  | some _ => inferInstanceAs (Decidable (_ ∧ _ ∧ _))

/-- The at-rest representation invariants of a 4S-MPI value (spec §3):
`size ≥ 1`, `len(data_01) = ⌈size / 64⌉`, machine words below `2 ^ 64`
(the `usize` type bound), no set bits at positions `≥ size`, and a
`data_xz` of matching shape when present. -/
def wf (v : Prim) : Prop :=
  1 ≤ v.size ∧ v.data_01.length = (v.size + 63) / 64 ∧
  (∀ w ∈ v.data_01, w < 2 ^ 64) ∧ wordsVal v.data_01 < 2 ^ v.size ∧
  wfXzPart v.data_xz v.data_01.length v.size

instance (v : Prim) : Decidable (wf v) := by
  unfold wf; infer_instance

/-- Bit `i` of the 0/1 lane. -/
def bit01 (v : Prim) (i : Nat) : Bool := Nat.testBit (wordsVal v.data_01) i

/-- Bit `i` of the X/Z lane (false for a two-state value). -/
def bitXZ (v : Prim) (i : Nat) : Bool := Nat.testBit (wordsVal (v.data_xz.getD [])) i

theorem contains_xz_set_signed (a : Prim) (s : Bool) :
    contains_xz { a with signed := s } = contains_xz a := rfl

/-! ## Claim C1 — `lt` versus the numeric order -/

/-- C1: the claim states that on X/Z-free operands `lt(a, b)` is `logic1b_1`
exactly when the value of `a` is below the value of `b` (both read unsigned
here, as the operands are unsigned).  The word loop of `lt`, however, never
stops when a more significant word of `a` exceeds the corresponding word of
`b`; for `a = 5·2^64` and `b = 4·2^64 + 1` (two 128-bit unsigned X/Z-free
values) it returns `logic1b_1` although `a > b` — against the function's own
doc comment ("Emulates the less than operator \"<\" as defined in 1800-2017 |
11.4.4 Relational operators"). -/
theorem C1_lt_word_scan_contradicts_numeric_order :
    wf ⟨[0, 5], none, 128, false⟩ ∧ wf ⟨[1, 4], none, 128, false⟩ ∧
    contains_xz ⟨[0, 5], none, 128, false⟩ = false ∧
    contains_xz ⟨[1, 4], none, 128, false⟩ = false ∧
    wordsVal [1, 4] < wordsVal [0, 5] ∧
    lt ⟨[0, 5], none, 128, false⟩ ⟨[1, 4], none, 128, false⟩ = logic1b_1 := by
  refine ⟨by decide, by decide, rfl, rfl, by decide, by decide⟩

/-! ## Claim C5 — `case_eq` is two-state -/

theorem caseEqSameSign_two_state (a b : Prim) :
    caseEqSameSign a b = bit1b_0 ∨ caseEqSameSign a b = bit1b_1 := by
  unfold caseEqSameSign
  rcases hs : matchedSignExtend a b with ⟨as1, bs1⟩
  rcases hz : matchedZeroExtend a b with ⟨az1, bz1⟩
  split_ifs <;> (try dsimp only) <;> (try split_ifs) <;>
    first
    | exact Or.inl rfl
    | exact Or.inr rfl

theorem caseEqSameSign_of_xz_ne (a b : Prim) (h : contains_xz a ≠ contains_xz b) :
    caseEqSameSign a b = bit1b_0 := by
  have hne : (contains_xz a != contains_xz b) = true := by
    cases ha : contains_xz a <;> cases hb : contains_xz b <;> simp [ha, hb] at h ⊢
  unfold caseEqSameSign
  rw [if_pos hne]

/-- C5: `case_eq(a, b)` always returns the two-state one-bit `bit1b_0` or
`bit1b_1` — never X — and returns `bit1b_0` whenever exactly one operand
contains an X/Z bit. -/
theorem C5_case_eq_two_state_and_xz_mismatch (a b : Prim) :
    (case_eq a b = bit1b_0 ∨ case_eq a b = bit1b_1) ∧
    (contains_xz a ≠ contains_xz b → case_eq a b = bit1b_0) := by
  constructor
  · unfold case_eq
    split_ifs <;> exact caseEqSameSign_two_state _ _
  · intro h
    unfold case_eq
    split_ifs <;>
      exact caseEqSameSign_of_xz_ne _ _ (by simpa [contains_xz_set_signed] using h)

/-- Witness for C5 at a concrete input: a one-bit X against a one-bit
two-state zero compare as `bit1b_0`. -/
theorem C5_witness :
    case_eq ⟨[0], some [1], 1, false⟩ ⟨[0], none, 1, false⟩ = bit1b_0 :=
  (C5_case_eq_two_state_and_xz_mismatch ⟨[0], some [1], 1, false⟩ ⟨[0], none, 1, false⟩).2
    (by decide)

/-! ## Claim C7 — `negate` on unsigned operands -/

/-- C7 counterexample: the claim says `negate` aborts on *every* unsigned
value; but `negate` tests `is_zero` first and returns an unsigned zero
unchanged without reaching the signedness guard. -/
theorem C7_cex_negate_unsigned_zero_returns :
    (SvPrimaryLiteralIntegral.mk [0] none 1 false).signed = false ∧
    negate ⟨[0], none, 1, false⟩ = some ⟨[0], none, 1, false⟩ := by
  refine ⟨rfl, by decide⟩

/-- C7 (amended): `negate(v)` on an unsigned `v` panics exactly when `v` is
not `is_zero`; an unsigned zero is returned unchanged (the zero early-return
precedes the unsigned-operand guard). -/
theorem C7_negate_unsigned_panics_iff_nonzero (v : Prim) (hu : v.signed = false) :
    (is_zero v = true → negate v = some v) ∧ (is_zero v = false → negate v = none) := by
  constructor
  · intro hz
    unfold negate
    rw [hz]
    simp
  · intro hz
    unfold negate
    rw [hz, hu]
    simp

/-- Witness for C7 at a concrete input: a nonzero unsigned value panics. -/
theorem C7_witness : negate ⟨[5], none, 3, false⟩ = none :=
  (C7_negate_unsigned_panics_iff_nonzero ⟨[5], none, 3, false⟩ rfl).2 (by decide)

/-! ## Claim C9 — `cat` on mixed mixed-state operands -/

theorem data_xz_lslStep (v : Prim) :
    (lslStep v).data_xz.isSome = v.data_xz.isSome := by
  unfold lslStep
  cases v.data_xz <;> dsimp only <;> split_ifs <;> simp

theorem is_4state_lsl (v : Prim) (n : Nat) : is_4state (lsl v n) = is_4state v := by
  induction n with
  | zero => rfl
  | succ n ih =>
    show is_4state (lslStep (lsl v n)) = _
    unfold is_4state
    rw [data_xz_lslStep]
    exact ih

/-- C9: `cat(a, b)` panics (unwraps the absent `data_xz`) exactly when one
operand is two-state and the other four-state; on matching state kinds it is
total. -/
theorem C9_cat_mixed_state_panics (a b : Prim) :
    (is_4state a ≠ is_4state b → cat a b = none) ∧
    (is_4state a = is_4state b → (cat a b).isSome = true) := by
  have h4 : (lsl a b.size).data_xz.isSome = a.data_xz.isSome := is_4state_lsl a b.size
  unfold cat is_4state
  cases hL : (lsl a b.size).data_xz <;> cases hb : b.data_xz <;>
    rw [hL] at h4 <;> simp only [hL, hb, Option.isSome_some, Option.isSome_none] <;>
    constructor
  · intro h; exact absurd (h4.symm.trans rfl) (by simpa using h)
  · intro _; rfl
  · intro _; rfl
  · intro h; rw [← h4] at h; simp at h
  · intro _; rfl
  · intro h; rw [← h4] at h; simp at h
  · intro h; exact absurd (h4.symm.trans rfl) (by simpa using h)
  · intro _; rfl

/-- Witness for C9 at concrete inputs: a four-state against a two-state
one-bit value panics, while two two-state values concatenate. -/
theorem C9_witness :
    cat ⟨[0], some [1], 1, false⟩ ⟨[1], none, 1, false⟩ = none ∧
    (cat ⟨[1], none, 1, false⟩ ⟨[0], none, 1, false⟩).isSome = true :=
  ⟨(C9_cat_mixed_state_panics ⟨[0], some [1], 1, false⟩ ⟨[1], none, 1, false⟩).1 (by decide),
   (C9_cat_mixed_state_panics ⟨[1], none, 1, false⟩ ⟨[0], none, 1, false⟩).2 (by decide)⟩

/-! ## Claim C10 — LocalParam records are never overridable -/

/-- C10: every `SvParameter` record assembled by
`port_parameter_declaration_ansi` for kind `LocalParam` carries
`datatype_overridable = false` and `signedness_overridable = false`: both
stored flags are conjoined with the parameter-kind test. -/
theorem C10_localparam_never_overridable (p : ParamAssignmentNode)
    (commonData : Option CommonDataNode) (rec : SvParameter)
    (h : portParameterDeclarationAnsi p commonData SvParamType.LocalParam = some rec) :
    rec.datatype_overridable = false ∧ rec.signedness_overridable = false := by
  unfold portParameterDeclarationAnsi at h
  dsimp only at h
  cases h1 : portParameterDatatypeAnsi commonData p p.foundAssignment SvParamType.LocalParam with
  | none => simp [h1] at h
  | some pr =>
    obtain ⟨dt, ovr⟩ := pr
    simp only [h1] at h
    cases h2 : portParameterSignednessAnsi commonData p dt p.foundAssignment ovr with
    | none => simp [h2] at h
    | some pr2 =>
      obtain ⟨sgn, sovr⟩ := pr2
      simp only [h2] at h
      cases h3 : portParameterClassidAnsi commonData dt with
      | none => simp [h3] at h
      | some cid =>
        simp only [h3] at h
        set pd := (match commonData with
                   | some c => c.packedDimensions
                   | none => ([] : List (String × String))) with hpd
        cases h4 : portParameterSyntaxAnsi dt sgn pd SvParamType.LocalParam
            p.foundAssignment with
        | none => simp [h4] at h
        | some u =>
          simp only [h4, Option.some.injEq] at h
          subst h
          simp

/-- The `ParamAssignment` features of a plain `localparam P = 5;`. -/
def paramP5 : ParamAssignmentNode :=
  { identifier := "P", foundAssignment := true, resolverNeeded := false,
    hasBinaryOperator := false, implicitLit := some .integralNumber,
    hasRealNumber := false, hasIntegralNumber := true,
    intLit := some .decimalUnsigned, scanEvents := [], expressionText := some "5",
    unpackedDimensions := [], commentText := none, numBitsFeature := some 32 }

/-- The record `localparam P = 5;` resolves to. -/
def paramP5Record : SvParameter :=
  { identifier := "P", expression := some "5", paramtype := .LocalParam,
    datatype := some .Logic, datatype_overridable := false, classid := none,
    signedness := some .Signed, signedness_overridable := false,
    num_bits := some 32, packed_dimensions := [], unpacked_dimensions := [],
    comment := none }

/-- Witness for C10 at a concrete input (`localparam P = 5`). -/
theorem C10_witness :
    portParameterDeclarationAnsi paramP5 none SvParamType.LocalParam = some paramP5Record ∧
    (paramP5Record.datatype_overridable = false ∧
     paramP5Record.signedness_overridable = false) :=
  ⟨by decide, C10_localparam_never_overridable paramP5 none paramP5Record (by decide)⟩

/-! ## Claim C2 — the `Unsigned` short-circuit for Logic parameters -/

/-- The common-data features of an explicit `logic` type with no signing. -/
def commonLogicNoSigning : CommonDataNode :=
  { typeNode := some .logicT, dataTypeKeyword := none, signing := none,
    classIdentifier := none, packedDimensions := [] }

/-- C2 counterexample: `localparam logic P = 5;` — kind `LocalParam`, datatype
resolving to `Logic` and not overridable, default an unsigned decimal literal
with no base token; the claim demands signedness `Signed`, but the code's
short-circuit `!datatype_overridable || !found_assignment` (an OR, not the
AND the claim states) fires and yields `Unsigned`. -/
theorem C2_cex_explicit_logic_localparam_unsigned :
    (portParameterDeclarationAnsi paramP5 (some commonLogicNoSigning)
        SvParamType.LocalParam).map
      (fun r => (r.datatype, r.datatype_overridable, r.signedness)) =
    some (some SvDataType.Logic, false, some SvSignedness.Unsigned) := by
  decide

/-- C2 (amended): in `port_parameter_signedness_ansi`, for datatype `Logic`
with no explicit `Signing` on the common data, the `Unsigned` short-circuit
applies when the datatype-overridable flag is false OR no default is present
(the flag passed here is the pre-conjunction explicit-datatype flag, which is
`true` for a LocalParam whose Logic type was derived from its default
literal); only when the flag is true AND a default is present AND the
default is not a compound expression does an unsigned decimal literal
without a base yield `Signed`. -/
theorem C2_logic_signedness_short_circuit (m : Option CommonDataNode)
    (p : ParamAssignmentNode) (found ovr : Bool)
    (hsign : ∀ c, m = some c → c.signing = none) :
    ((ovr = false ∨ found = false) →
      portParameterSignednessAnsi m p (some SvDataType.Logic) found ovr =
        some (some SvSignedness.Unsigned, true)) ∧
    (ovr = true → found = true → p.resolverNeeded = false →
      p.intLit = some IntLitNode.decimalUnsigned →
      portParameterSignednessAnsi m p (some SvDataType.Logic) found ovr =
        some (some SvSignedness.Signed, true)) := by
  constructor
  · intro h
    have hcond : (!ovr || !found) = true := by
      rcases h with h | h <;> rw [h] <;> simp
    cases m with
    | none =>
      unfold portParameterSignednessAnsi
      try dsimp only
      rw [if_pos hcond]
    | some c =>
      have hs := hsign c rfl
      unfold portParameterSignednessAnsi
      simp only [hs]
      try dsimp only
      rw [if_pos hcond]
  · intro hovr hfound hres hlit
    subst hovr; subst hfound
    cases m with
    | none =>
      unfold portParameterSignednessAnsi
      try dsimp only
      simp only [Bool.not_true, Bool.or_self, Bool.false_eq_true, if_false, hres, hlit]
    | some c =>
      have hs := hsign c rfl
      unfold portParameterSignednessAnsi
      simp only [hs]
      try dsimp only
      simp only [Bool.not_true, Bool.or_self, Bool.false_eq_true, if_false, hres, hlit]

/-- Witness for C2's amended statement at concrete inputs: with an explicit
(non-overridable) Logic type the result is `Unsigned`; with the overridable
flag (implicit type derived from the literal) the same default gives
`Signed`. -/
theorem C2_witness :
    portParameterSignednessAnsi (some commonLogicNoSigning) paramP5
      (some SvDataType.Logic) true false = some (some SvSignedness.Unsigned, true) ∧
    portParameterSignednessAnsi none paramP5
      (some SvDataType.Logic) true true = some (some SvSignedness.Signed, true) :=
  ⟨(C2_logic_signedness_short_circuit (some commonLogicNoSigning) paramP5 true false
      (fun c hc => by cases hc; rfl)).1 (Or.inl rfl),
   (C2_logic_signedness_short_circuit none paramP5 true true
      (fun c hc => by cases hc)).2 rfl rfl rfl rfl⟩

/-! ## Claim C4 — result widths of `add_primlit` and `mult` -/

theorem cat_size {a b r : Prim} (h : cat a b = some r) : r.size = a.size + b.size := by
  unfold cat at h
  dsimp only at h
  split_ifs at h
  · cases hL : (lsl a b.size).data_xz <;> cases hb : b.data_xz <;>
      rw [hL, hb] at h <;> simp only [Option.some.injEq] at h <;>
      first
      | exact absurd h (by simp)
      | (rw [← h])
  · simp only [Option.some.injEq] at h
    rw [← h]

theorem catLoop_size {xp : Prim} :
    ∀ (k : Nat) (acc r : Prim), catLoop k xp acc = some r →
      r.size = acc.size + k * xp.size := by
  intro k
  induction k with
  | zero =>
    intro acc r h
    unfold catLoop at h
    simp only [Option.some.injEq] at h
    rw [← h]; simp
  | succ n ih =>
    intro acc r h
    unfold catLoop at h
    cases hc : cat acc xp with
    | none => rw [hc] at h; exact absurd h (by simp)
    | some acc' =>
      rw [hc] at h
      have h1 := ih acc' r h
      have h2 := cat_size hc
      rw [h1, h2]
      ring

theorem truncatePrim_some_size {v : Prim} {n : Nat} {w : Prim}
    (h : truncatePrim v n = some w) : w.size = n := by
  unfold truncatePrim at h
  split_ifs at h
  · simp only [Option.some.injEq] at h
    rw [← h]

theorem promotePair_sizes (a b : Prim) :
    (promotePair a b).1.size = a.size ∧ (promotePair a b).2.size = b.size := by
  unfold promotePair to_4state
  split_ifs <;> simp

theorem fix4state_size (r : Prim) : (fix4state r).size = r.size := by
  unfold fix4state
  split_ifs <;> rfl

theorem addPrimlit_some_size {a b r : Prim} (h : addPrimlit a b = some r) :
    r.size = max a.size b.size + 1 := by
  obtain ⟨hs1, hs2⟩ := promotePair_sizes a b
  unfold addPrimlit at h
  rcases hp : promotePair a b with ⟨a1, b1⟩
  rw [hp] at h hs1 hs2
  dsimp only at h hs1 hs2
  have hfin : (if a1.size > b1.size then a1.size + 1 else b1.size + 1) =
      max a.size b.size + 1 := by
    rw [← hs1, ← hs2]
    split_ifs with hgt <;> omega
  rw [hfin] at h
  by_cases hxz : (!contains_xz a1 && !contains_xz b1) = true
  · rw [if_pos hxz] at h
    by_cases hsg : (unsignedPrimlitAdd
        (if a1.signed = false || b1.signed = false then
          ({ a1 with signed := false }, b1)
        else
          let matched : Prim :=
            ⟨0 :: List.replicate ((if a1.size > b1.size then a1.data_01.length + 1
              else b1.data_01.length + 1) - 1) 0, none,
              (if a1.size > b1.size then a1.data_01.length + 1
               else b1.data_01.length + 1) * 64, true⟩
          let pa := matchedSignExtend a1 matched
          let pb := matchedSignExtend b1 pa.2
          (pa.1, pb.1)).1
        (if a1.signed = false || b1.signed = false then
          ({ a1 with signed := false }, b1)
        else
          let matched : Prim :=
            ⟨0 :: List.replicate ((if a1.size > b1.size then a1.data_01.length + 1
              else b1.data_01.length + 1) - 1) 0, none,
              (if a1.size > b1.size then a1.data_01.length + 1
               else b1.data_01.length + 1) * 64, true⟩
          let pa := matchedSignExtend a1 matched
          let pb := matchedSignExtend b1 pa.2
          (pa.1, pb.1)).2).signed = true
    · rw [if_pos hsg] at h
      cases ht : truncatePrim (unsignedPrimlitAdd _ _) (max a.size b.size + 1) with
      | none =>
        rw [ht] at h
        exact absurd h (by simp)
      | some r1 =>
        rw [ht] at h
        simp only [Option.some.injEq] at h
        rw [← h, fix4state_size]
        exact truncatePrim_some_size ht
    · rw [if_neg hsg] at h
      simp only [Option.some.injEq] at h
      rw [← h, fix4state_size]
  · rw [if_neg hxz] at h
    have hk := catLoop_size _ _ _ h
    rw [hk]
    simp only []
    rw [← hs1, ← hs2]
    simp only [Nat.max_def]
    split_ifs with hlt hle <;> omega

theorem mult_some_size {a b r : Prim} (h : mult a b = some r) :
    r.size = a.size + b.size := by
  obtain ⟨hs1, hs2⟩ := promotePair_sizes a b
  unfold mult at h
  rcases hp : promotePair a b with ⟨a1, b1⟩
  rw [hp] at h hs1 hs2
  dsimp only at h hs1 hs2
  by_cases hxz : (!contains_xz a1 && !contains_xz b1) = true
  · rw [if_pos hxz] at h
    cases hm : mulUnsigned
        (if a1.signed && b1.signed then
          let matched : Prim :=
            ⟨0 :: List.replicate (a1.data_01.length + b1.data_01.length - 1) 0, none,
              (a1.data_01.length + b1.data_01.length) * 64, true⟩
          let pa := matchedSignExtend a1 matched
          let pb := matchedSignExtend b1 pa.2
          (pa.1, pb.1)
        else (a1, b1)).1
        (if a1.signed && b1.signed then
          let matched : Prim :=
            ⟨0 :: List.replicate (a1.data_01.length + b1.data_01.length - 1) 0, none,
              (a1.data_01.length + b1.data_01.length) * 64, true⟩
          let pa := matchedSignExtend a1 matched
          let pb := matchedSignExtend b1 pa.2
          (pa.1, pb.1)
        else (a1, b1)).2 with
    | none =>
      rw [hm] at h
      exact absurd h (by simp)
    | some r0 =>
      rw [hm] at h
      dsimp only at h
      by_cases hgt : r0.size > a1.size + b1.size
      · rw [if_pos hgt] at h
        cases ht : truncatePrim r0 (a1.size + b1.size) with
        | none =>
          rw [ht] at h
          exact absurd h (by simp)
        | some r1 =>
          rw [ht] at h
          simp only [Option.some.injEq] at h
          rw [← h, fix4state_size]
          show r1.size = a.size + b.size
          rw [truncatePrim_some_size ht, hs1, hs2]
      · rw [if_neg hgt] at h
        simp only [Option.some.injEq] at h
        rw [← h, fix4state_size]
        show a1.size + b1.size = a.size + b.size
        rw [hs1, hs2]
  · rw [if_neg hxz] at h
    split_ifs at h with h0
    have hk := catLoop_size _ _ _ h
    rw [hk]
    simp only []
    rw [← hs1, ← hs2]
    omega

/-- C4: whenever `add_primlit(a, b)` returns, the result's `size` is exactly
`max(a.size, b.size) + 1`, and whenever `mult(a, b)` returns, the result's
`size` is exactly `a.size + b.size` — on the X/Z-free fast paths and on the
poisoned paths alike, for any signedness and state kinds. -/
theorem C4_add_mult_result_widths (a b r s : Prim)
    (hadd : addPrimlit a b = some r) (hmul : mult a b = some s) :
    r.size = max a.size b.size + 1 ∧ s.size = a.size + b.size :=
  ⟨addPrimlit_some_size hadd, mult_some_size hmul⟩

set_option maxRecDepth 100000 in
/-- Witness for C4 at a concrete input (the source's own doc-test vector
`(-1 : 2 bits signed) ⋆ (-4 : 3 bits signed)`): both operations return, and
the theorem yields the widths 4 and 5. -/
theorem C4_witness :
    addPrimlit ⟨[3], none, 2, true⟩ ⟨[4], none, 3, true⟩ = some ⟨[11], none, 4, true⟩ ∧
    mult ⟨[3], none, 2, true⟩ ⟨[4], none, 3, true⟩ = some ⟨[4], none, 5, true⟩ ∧
    (SvPrimaryLiteralIntegral.mk [11] none 4 true).size = max 2 3 + 1 ∧
    (SvPrimaryLiteralIntegral.mk [4] none 5 true).size = 2 + 3 := by
  refine ⟨by decide, by decide, ?_, ?_⟩ <;>
  · have := C4_add_mult_result_widths ⟨[3], none, 2, true⟩ ⟨[4], none, 3, true⟩
      ⟨[11], none, 4, true⟩ ⟨[4], none, 5, true⟩ (by decide) (by decide)
    first
    | exact this.1
    | exact this.2

/-! ## Claim C6 — `_truncate` -/

theorem add_pow_mul_mod {A B m r : Nat} (hA : A < 2 ^ m) :
    (A + 2 ^ m * B) % 2 ^ (m + r) = A + 2 ^ m * (B % 2 ^ r) := by
  conv_lhs => rw [← Nat.div_add_mod B (2 ^ r)]
  rw [pow_add]
  have h1 : A + 2 ^ m * (2 ^ r * (B / 2 ^ r) + B % 2 ^ r) =
      A + 2 ^ m * (B % 2 ^ r) + 2 ^ m * 2 ^ r * (B / 2 ^ r) := by ring
  rw [h1, Nat.add_mul_mod_self_left]
  apply Nat.mod_eq_of_lt
  have hBr : B % 2 ^ r < 2 ^ r := Nat.mod_lt _ (by positivity)
  calc A + 2 ^ m * (B % 2 ^ r) < 2 ^ m + 2 ^ m * (B % 2 ^ r) := by omega
    _ = 2 ^ m * (1 + B % 2 ^ r) := by ring
    _ ≤ 2 ^ m * 2 ^ r := Nat.mul_le_mul_left _ (by omega)

theorem maskIter_eq_mod :
    ∀ (c x w : Nat), c ≤ x → x ≤ 64 → w < 2 ^ x →
      maskIter x c w = w % 2 ^ (x - c) := by
  intro c
  induction c with
  | zero =>
    intro x w _ _ hw
    unfold maskIter
    simp [Nat.mod_eq_of_lt hw]
  | succ m ih =>
    intro x w hcx hx64 hw
    unfold maskIter
    have hx1 : (1 : Nat) ≤ x := by omega
    have h2x : (2 : Nat) ^ x = 2 ^ (x - 1) * 2 := by
      rw [← pow_succ]
      congr 1
      omega
    by_cases hbl : bitLen w = x
    · rw [if_pos (by simpa using hbl)]
      have hw0 : 0 < w := by
        by_contra h0
        have hz : w = 0 := by omega
        rw [hz, bitLen_zero] at hbl
        omega
      obtain ⟨_, hlow, _⟩ := bitLen_spec hw0 (lt_of_lt_of_le hw
        (Nat.pow_le_pow_right (by norm_num) hx64))
      rw [hbl] at hlow
      have hlt : w - 2 ^ (x - 1) < 2 ^ (x - 1) := by omega
      have hsub : w - 2 ^ (x - 1) = w % 2 ^ (x - 1) := by
        rw [Nat.mod_eq_sub_mod hlow, Nat.mod_eq_of_lt hlt]
      rw [hsub, ih (x - 1) (w % 2 ^ (x - 1)) (by omega) (by omega)
        (Nat.mod_lt _ (by positivity))]
      rw [Nat.mod_mod_of_dvd _ (Nat.pow_dvd_pow 2 (by omega))]
      have he : x - 1 - m = x - (m + 1) := by omega
      rw [he]
    · rw [if_neg (by simpa using hbl)]
      have hwlt : w < 2 ^ (x - 1) := by
        rcases Nat.eq_zero_or_pos w with h0 | h0
        · rw [h0]; positivity
        · obtain ⟨_, hlow, hhigh⟩ := bitLen_spec h0 (lt_of_lt_of_le hw
            (Nat.pow_le_pow_right (by norm_num) hx64))
          have hble : bitLen w ≤ x := by
            by_contra hgt
            have hx2 : (2:Nat) ^ x ≤ 2 ^ (bitLen w - 1) :=
              Nat.pow_le_pow_right (by norm_num) (by omega)
            omega
          have hb1 : bitLen w ≤ x - 1 := by omega
          exact lt_of_lt_of_le hhigh (Nat.pow_le_pow_right (by norm_num) hb1)
      rw [ih (x - 1) w (by omega) (by omega) hwlt]
      have he : x - 1 - m = x - (m + 1) := by omega
      rw [he]

theorem wordsVal_take (l : List Nat) (m : Nat) (hb : ∀ w ∈ l, w < 2 ^ 64) :
    wordsVal (l.take m) = wordsVal l % 2 ^ (64 * (l.take m).length) := by
  have hlt : wordsVal (l.take m) < 2 ^ (64 * (l.take m).length) :=
    wordsVal_lt _ (fun w hw => hb w (List.mem_of_mem_take hw))
  have hsplit : wordsVal l =
      wordsVal (l.take m) + 2 ^ (64 * (l.take m).length) * wordsVal (l.drop m) := by
    conv_lhs => rw [← List.take_append_drop m l]
    rw [wordsVal_append]
  rw [hsplit, Nat.add_mul_mod_self_left, Nat.mod_eq_of_lt hlt]

theorem truncateLane_mod0 {n : Nat} (l : List Nat) (h0 : n % 64 = 0) :
    truncateLane n l = l.take (l.length - (l.length - n / 64)) := by
  unfold truncateLane dropLastN
  simp [h0]

theorem truncateLane_modne {n : Nat} (l : List Nat) (h0 : n % 64 ≠ 0) :
    truncateLane n l = (l.take (l.length - (l.length - n / 64 - 1))).dropLast ++
      [maskIter 64 (64 - n % 64)
        ((l.take (l.length - (l.length - n / 64 - 1))).getLastD 0)] := by
  unfold truncateLane dropLastN
  have hb : (n % 64 == 0) = false := by simpa using h0
  have hne : 64 - n % 64 ≠ 0 := by omega
  simp only [hb, if_false, Bool.false_eq_true]
  rw [if_pos hne]

/-- The per-lane effect of `_truncate`: with bounded words and at least
`⌈n / 64⌉` words available, the lane keeps exactly the value modulo `2 ^ n`,
in `⌈n / 64⌉` words, all bounded. -/
theorem truncateLane_spec (l : List Nat) (n : Nat) (hn : 1 ≤ n)
    (hb : ∀ w ∈ l, w < 2 ^ 64) (hlen : (n + 63) / 64 ≤ l.length) :
    wordsVal (truncateLane n l) = wordsVal l % 2 ^ n ∧
    (truncateLane n l).length = (n + 63) / 64 ∧
    (∀ w ∈ truncateLane n l, w < 2 ^ 64) := by
  by_cases h0 : n % 64 = 0
  · rw [truncateLane_mod0 l h0]
    have hq : (n + 63) / 64 = n / 64 := by omega
    have hql : n / 64 ≤ l.length := by omega
    have hto : l.length - (l.length - n / 64) = n / 64 := by omega
    rw [hto]
    have htl : (l.take (n / 64)).length = n / 64 := by
      rw [List.length_take]
      omega
    refine ⟨?_, by rw [htl, hq], fun w hw => hb w (List.mem_of_mem_take hw)⟩
    rw [wordsVal_take l (n / 64) hb, htl]
    have he : 64 * (n / 64) = n := by omega
    rw [he]
  · rw [truncateLane_modne l h0]
    have hq : (n + 63) / 64 = n / 64 + 1 := by omega
    have hql : n / 64 + 1 ≤ l.length := by omega
    have hto : l.length - (l.length - n / 64 - 1) = n / 64 + 1 := by omega
    rw [hto]
    set d := l.take (n / 64 + 1) with hd
    have hsub : ∀ w ∈ d, w < 2 ^ 64 := fun w hw => hb w (List.mem_of_mem_take hw)
    have htl : d.length = n / 64 + 1 := by
      rw [hd, List.length_take]
      omega
    have hdne : d ≠ [] := by
      intro hcon
      rw [hcon] at htl
      simp at htl
    have hsplit : d = d.dropLast ++ [d.getLastD 0] := by
      conv_lhs => rw [← List.dropLast_append_getLast hdne]
      rw [List.getLastD_eq_getLast?, List.getLast?_eq_getLast d hdne]
      simp
    have hlast_mem : d.getLastD 0 ∈ d := by
      rw [List.getLastD_eq_getLast?, List.getLast?_eq_getLast d hdne]
      simp
    have hlastb : d.getLastD 0 < 2 ^ 64 := hsub _ hlast_mem
    have hr1 : 1 ≤ n % 64 := by omega
    have hmask : maskIter 64 (64 - n % 64) (d.getLastD 0) =
        d.getLastD 0 % 2 ^ (n % 64) := by
      rw [maskIter_eq_mod (64 - n % 64) 64 _ (by omega) (by omega) hlastb]
      have he : 64 - (64 - n % 64) = n % 64 := by omega
      rw [he]
    have hdl_len : d.dropLast.length = n / 64 := by
      rw [List.length_dropLast, htl]
      omega
    have hdl_b : ∀ w ∈ d.dropLast, w < 2 ^ 64 :=
      fun w hw => hsub w (List.mem_of_mem_dropLast hw)
    have hdl_lt : wordsVal d.dropLast < 2 ^ (64 * (n / 64)) := by
      have h := wordsVal_lt d.dropLast hdl_b
      rwa [hdl_len] at h
    refine ⟨?_, ?_, ?_⟩
    · rw [hmask]
      have hvd : wordsVal l % 2 ^ n = wordsVal d % 2 ^ n := by
        rw [hd, wordsVal_take l _ hb]
        rw [show (l.take (n / 64 + 1)).length = n / 64 + 1 from htl]
        rw [Nat.mod_mod_of_dvd]
        exact Nat.pow_dvd_pow 2 (by omega)
      rw [hvd]
      conv_rhs => rw [hsplit]
      rw [wordsVal_append, wordsVal_append, hdl_len]
      simp only [wordsVal]
      have hz1 : d.getLastD 0 % 2 ^ (n % 64) + 2 ^ 64 * 0 = d.getLastD 0 % 2 ^ (n % 64) := by
        ring
      have hz2 : d.getLastD 0 + 2 ^ 64 * 0 = d.getLastD 0 := by ring
      rw [hz1, hz2]
      have hexp : (2 : Nat) ^ n = 2 ^ (64 * (n / 64) + n % 64) := by
        congr 1
        omega
      rw [hexp]
      exact (add_pow_mul_mod hdl_lt).symm
    · rw [List.length_append, hdl_len, hq]
      simp
    · intro w hw
      rcases List.mem_append.mp hw with hw | hw
      · exact hdl_b w hw
      · have hvw : w = maskIter 64 (64 - n % 64) (d.getLastD 0) := by
          simpa using hw
        rw [hvw, hmask]
        exact lt_of_lt_of_le (Nat.mod_lt _ (by positivity))
          (Nat.pow_le_pow_right (by norm_num) (by omega))

/-- C6: `_truncate(v, n)` panics exactly when `n = 0` or `n > v.size`; on
success it sets `size` to `n`, leaves every bit position `< n` unchanged in
both lanes, and zeroes every position `≥ n` (the lane values become the old
values modulo `2 ^ n`). -/
theorem C6_truncate_spec (v : Prim) (n : Nat) (hwf : wf v) :
    (truncatePrim v n = none ↔ (n = 0 ∨ v.size < n)) ∧
    (∀ w, truncatePrim v n = some w →
      w.size = n ∧ w.signed = v.signed ∧
      wordsVal w.data_01 = wordsVal v.data_01 % 2 ^ n ∧
      (∀ i, i < n → bit01 w i = bit01 v i) ∧
      (∀ i, n ≤ i → bit01 w i = false) ∧
      (∀ xs, v.data_xz = some xs → ∃ ys, w.data_xz = some ys ∧
        wordsVal ys = wordsVal xs % 2 ^ n ∧
        (∀ i, i < n → bitXZ w i = bitXZ v i) ∧
        (∀ i, n ≤ i → bitXZ w i = false))) := by
  obtain ⟨hs1, hlen, hb, hval, hxz⟩ := hwf
  constructor
  · unfold truncatePrim
    split_ifs with h1 h2
    · simp
      omega
    · simp
      omega
    · simp
      omega
  · intro w hw
    unfold truncatePrim at hw
    split_ifs at hw with h1 h2
    simp only [Option.some.injEq] at hw
    subst hw
    have hn1 : 1 ≤ n := by omega
    have hlenge : (n + 63) / 64 ≤ v.data_01.length := by
      rw [hlen]
      omega
    obtain ⟨hv01, hl01, hb01⟩ := truncateLane_spec v.data_01 n hn1 hb hlenge
    refine ⟨rfl, rfl, hv01, ?_, ?_, ?_⟩
    · intro i hi
      unfold bit01
      simp only []
      rw [hv01, Nat.testBit_mod_two_pow]
      simp [hi]
    · intro i hi
      unfold bit01
      simp only []
      rw [hv01, Nat.testBit_mod_two_pow]
      simp
      omega
    · intro xs hxs
      unfold wfXzPart at hxz
      rw [hxs] at hxz
      obtain ⟨hxlen, hxb, hxval⟩ := hxz
      have hxlenge : (n + 63) / 64 ≤ xs.length := by rw [hxlen]; exact hlenge
      obtain ⟨hvxz, hlxz, hbxz⟩ := truncateLane_spec xs n hn1 hxb hxlenge
      refine ⟨truncateLane n xs, by rw [hxs]; rfl, hvxz, ?_, ?_⟩
      · intro i hi
        unfold bitXZ
        simp only [hxs]
        show Nat.testBit (wordsVal (truncateLane n xs)) i = (wordsVal xs).testBit i
        rw [hvxz, Nat.testBit_mod_two_pow]
        simp [hi]
      · intro i hi
        unfold bitXZ
        simp only [hxs]
        show Nat.testBit (wordsVal (truncateLane n xs)) i = false
        rw [hvxz, Nat.testBit_mod_two_pow]
        simp
        omega

set_option maxRecDepth 10000 in
/-- Witness for C6 at a concrete input: truncating a 66-bit four-state value
to 65 bits, and the two panic modes. -/
theorem C6_witness :
    (truncatePrim ⟨[9223372036854775808, 3], some [1, 3], 66, false⟩ 0 = none ↔
      ((0 : Nat) = 0 ∨ (66 : Nat) < 0)) ∧
    truncatePrim ⟨[9223372036854775808, 3], some [1, 3], 66, false⟩ 65 =
      some ⟨[9223372036854775808, 1], some [1, 1], 65, false⟩ ∧
    (SvPrimaryLiteralIntegral.mk [9223372036854775808, 1] (some [1, 1]) 65 false).size = 65 := by
  have h := C6_truncate_spec ⟨[9223372036854775808, 3], some [1, 3], 66, false⟩ 65 (by decide)
  refine ⟨?_, by decide, ?_⟩
  · have h0 := C6_truncate_spec ⟨[9223372036854775808, 3], some [1, 3], 66, false⟩ 0 (by decide)
    simpa using h0.1
  · exact (h.2 _ (by decide)).1

/-! ## Claim C3 — the poisoned all-X paths of `add_primlit` and `mult` -/

theorem lz_eq_zero_iff {w : Nat} (hw : w < 2 ^ 64) :
    ((lz w == 0) = true) ↔ 2 ^ 63 ≤ w := by
  unfold lz
  have hle := bitLen_le hw
  constructor
  · intro h
    have h64 : bitLen w = 64 := by
      simp at h
      omega
    rcases Nat.eq_zero_or_pos w with h0 | h0
    · rw [h0, bitLen_zero] at h64; omega
    · obtain ⟨_, hlow, _⟩ := bitLen_spec h0 hw
      rw [h64] at hlow
      exact le_trans (by norm_num) hlow
  · intro h
    have h0 : 0 < w := lt_of_lt_of_le (by positivity) h
    obtain ⟨_, _, hhigh⟩ := bitLen_spec h0 hw
    have : 64 ≤ bitLen w := by
      by_contra hlt
      have : (2:Nat) ^ bitLen w ≤ 2 ^ 63 := Nat.pow_le_pow_right (by norm_num) (by omega)
      omega
    simp
    omega

theorem two_pow_64_eq : (2 : Nat) ^ 64 = 18446744073709551616 := by norm_num

theorem two_pow_63_eq : (2 : Nat) ^ 63 = 9223372036854775808 := by norm_num

theorem shlWords_spec :
    ∀ (l : List Nat) (c : Bool), (∀ w ∈ l, w < 2 ^ 64) →
      (shlWords l c).1.length = l.length ∧
      (∀ w ∈ (shlWords l c).1, w < 2 ^ 64) ∧
      wordsVal (shlWords l c).1 + 2 ^ (64 * l.length) * (cond (shlWords l c).2 1 0) =
        2 * wordsVal l + cond c 1 0 := by
  intro l
  induction l with
  | nil =>
    intro c _
    refine ⟨rfl, by simp [shlWords], ?_⟩
    simp only [shlWords, wordsVal, List.length_nil]
    cases c <;> simp
  | cons w ws ih =>
    intro c hb
    have hw : w < 2 ^ 64 := hb w (by simp)
    have hws : ∀ x ∈ ws, x < 2 ^ 64 := fun x hx => hb x (by simp [hx])
    obtain ⟨ihlen, ihb, ihval⟩ := ih (lz w == 0) hws
    unfold shlWords
    dsimp only
    have hw' : w * 2 % 2 ^ 64 + (if c then 1 else 0) + 2 ^ 64 * (cond (lz w == 0) 1 0) =
        2 * w + cond c 1 0 := by
      by_cases hmsb : 2 ^ 63 ≤ w
      · have hc : (lz w == 0) = true := (lz_eq_zero_iff hw).mpr hmsb
        rw [hc]
        simp only [two_pow_64_eq] at *
        simp only [two_pow_63_eq] at *
        cases c <;> simp only [if_true, if_false, cond, Bool.false_eq_true] <;> omega
      · have hc : (lz w == 0) = false := by
          rcases Bool.eq_false_or_eq_true (lz w == 0) with h | h
          · exact absurd ((lz_eq_zero_iff hw).mp h) hmsb
          · exact h
        rw [hc]
        simp only [two_pow_64_eq] at *
        simp only [two_pow_63_eq] at *
        cases c <;> simp only [if_true, if_false, cond, Bool.false_eq_true] <;> omega
    refine ⟨by simpa using ihlen, ?_, ?_⟩
    · intro x hx
      rcases List.mem_cons.mp hx with rfl | hx
      · have hm : w * 2 % 2 ^ 64 < 2 ^ 64 := Nat.mod_lt _ (by positivity)
        simp only [two_pow_64_eq] at *
        split_ifs <;> omega
      · exact ihb x hx
    · show w * 2 % 2 ^ 64 + (if c then 1 else 0) + 2 ^ 64 * wordsVal (shlWords ws (lz w == 0)).1 +
        2 ^ (64 * (ws.length + 1)) * cond (shlWords ws (lz w == 0)).2 1 0 =
        2 * (w + 2 ^ 64 * wordsVal ws) + cond c 1 0
      have hpow : 2 ^ (64 * (ws.length + 1)) = 2 ^ 64 * 2 ^ (64 * ws.length) := by
        rw [← pow_add]; ring_nf
      rw [hpow]
      have h2 : 2 ^ 64 * wordsVal (shlWords ws (lz w == 0)).1 +
          2 ^ 64 * 2 ^ (64 * ws.length) * cond (shlWords ws (lz w == 0)).2 1 0 =
          2 ^ 64 * (2 * wordsVal ws + cond (lz w == 0) 1 0) := by
        rw [← ihval]; ring
      simp only [two_pow_64_eq] at hw' h2 ⊢
      omega

theorem addWords_spec :
    ∀ (l r : List Nat) (c : Bool), l.length = r.length →
      (∀ w ∈ l, w < 2 ^ 64) → (∀ w ∈ r, w < 2 ^ 64) →
      (∀ p ∈ l.zip r, ¬(p.1 = 2 ^ 64 - 1 ∧ p.2 = 2 ^ 64 - 1)) →
      (addWords l r c).1.length = l.length ∧
      (∀ w ∈ (addWords l r c).1, w < 2 ^ 64) ∧
      wordsVal (addWords l r c).1 + 2 ^ (64 * l.length) * (cond (addWords l r c).2 1 0) =
        wordsVal l + wordsVal r + cond c 1 0 := by
  intro l
  induction l with
  | nil =>
    intro r c hlen _ _ _
    have hre : r = [] := by
      cases r
      · rfl
      · simp at hlen
    subst hre
    refine ⟨rfl, by simp [addWords], ?_⟩
    simp only [addWords, wordsVal, List.length_nil]
    cases c <;> simp
  | cons x xs ih =>
    intro r c hlen hbl hbr hnp
    cases r with
    | nil => simp at hlen
    | cons y ys =>
      have hx : x < 2 ^ 64 := hbl x (by simp)
      have hy : y < 2 ^ 64 := hbr y (by simp)
      have hxs : ∀ w ∈ xs, w < 2 ^ 64 := fun w hw => hbl w (by simp [hw])
      have hys : ∀ w ∈ ys, w < 2 ^ 64 := fun w hw => hbr w (by simp [hw])
      have hlen' : xs.length = ys.length := by simpa using hlen
      have hnp' : ∀ p ∈ xs.zip ys, ¬(p.1 = 2 ^ 64 - 1 ∧ p.2 = 2 ^ 64 - 1) :=
        fun p hp => hnp p (by simp [hp])
      have hnp0 : ¬(x = 2 ^ 64 - 1 ∧ y = 2 ^ 64 - 1) := hnp (x, y) (by simp)
      unfold addWords
      dsimp only
      set cN : Nat := cond c 1 0 with hcN
      have hcN1 : cN ≤ 1 := by rw [hcN]; cases c <;> simp
      have hs1 : (if c then ((x + y) % 2 ^ 64 + 1) % 2 ^ 64 else (x + y) % 2 ^ 64) =
          (x + y + cN) % 2 ^ 64 := by
        cases c
        · simp [hcN]
        · simp only [hcN, cond, if_true]
          rw [Nat.mod_add_mod]
      rw [hs1]
      set s1 := (x + y + cN) % 2 ^ 64 with hs1def
      have hs1lt : s1 < 2 ^ 64 := Nat.mod_lt _ (by positivity)
      have hs1cases : s1 = x + y + cN ∨ (s1 + 2 ^ 64 = x + y + cN ∧ 2 ^ 64 ≤ x + y + cN) := by
        rcases Nat.lt_or_ge (x + y + cN) (2 ^ 64) with hlt | hge
        · exact Or.inl (by rw [hs1def, Nat.mod_eq_of_lt hlt])
        · right
          refine ⟨?_, hge⟩
          rw [hs1def, Nat.mod_eq_sub_mod hge, Nat.mod_eq_of_lt ?_]
          · omega
          · simp only [two_pow_64_eq] at *
            omega
      have hcarry : (!(decide (x ≤ s1) && decide (y ≤ s1))) = true ↔
          2 ^ 64 ≤ x + y + cN := by
        constructor
        · intro h
          simp only [Bool.not_eq_true', Bool.and_eq_false_iff] at h
          simp only [two_pow_64_eq] at *
          rcases h with h | h <;> simp at h <;> omega
        · intro h
          simp only [Bool.not_eq_true', Bool.and_eq_false_iff]
          simp only [two_pow_64_eq] at *
          by_cases hxl : x ≤ s1
          · right
            simp
            omega
          · left
            simp
            omega
      set cfl := !(decide (x ≤ s1) && decide (y ≤ s1)) with hcfl
      obtain ⟨ihlen, ihb, ihval⟩ := ih ys cfl hlen' hxs hys hnp'
      refine ⟨by simpa using ihlen, ?_, ?_⟩
      · intro w hw
        rcases List.mem_cons.mp hw with rfl | hw
        · exact hs1lt
        · exact ihb w hw
      · show s1 + 2 ^ 64 * wordsVal (addWords xs ys cfl).1 +
          2 ^ (64 * (xs.length + 1)) * cond (addWords xs ys cfl).2 1 0 =
          (x + 2 ^ 64 * wordsVal xs) + (y + 2 ^ 64 * wordsVal ys) + cN
        have hpow : 2 ^ (64 * (xs.length + 1)) = 2 ^ 64 * 2 ^ (64 * xs.length) := by
          rw [← pow_add]; ring_nf
        rw [hpow]
        have h2 : 2 ^ 64 * wordsVal (addWords xs ys cfl).1 +
            2 ^ 64 * 2 ^ (64 * xs.length) * cond (addWords xs ys cfl).2 1 0 =
            2 ^ 64 * (wordsVal xs + wordsVal ys + cond cfl 1 0) := by
          rw [← ihval]; ring
        have hcv : s1 + 2 ^ 64 * cond cfl 1 0 = x + y + cN := by
          rcases Bool.eq_false_or_eq_true cfl with hc | hc
          · rw [hc]
            have hnc := hcarry.mp hc
            simp only [cond]
            simp only [two_pow_64_eq] at *
            rcases hs1cases with hc1 | ⟨hc1, hge⟩ <;> omega
          · rw [hc]
            have hnc := (not_iff_not.mpr hcarry).mp (by simp [hc])
            simp only [cond]
            simp only [two_pow_64_eq] at *
            rcases hs1cases with hc1 | ⟨hc1, hge⟩ <;> omega
        simp only [two_pow_64_eq] at h2 hcv ⊢
        omega

theorem zip_fst_replicate_zero :
    ∀ (k : Nat) (l : List Nat) (p : Nat × Nat),
      p ∈ (List.replicate k (0 : Nat)).zip l → p.1 = 0 := by
  intro k
  induction k with
  | zero => intro l p hp; simp [List.replicate] at hp
  | succ n ih =>
    intro l p hp
    cases l with
    | nil => simp at hp
    | cons y ys =>
      rw [List.replicate_succ] at hp
      rcases List.mem_cons.mp hp with h | h
      · rw [h]
      · exact ih ys p h

theorem zip_snd_replicate_zero :
    ∀ (l : List Nat) (k : Nat) (p : Nat × Nat),
      p ∈ l.zip (List.replicate k (0 : Nat)) → p.2 = 0 := by
  intro l
  induction l with
  | nil => intro k p hp; simp at hp
  | cons x xs ih =>
    intro k p hp
    cases k with
    | zero => simp [List.replicate] at hp
    | succ n =>
      rw [List.replicate_succ] at hp
      rcases List.mem_cons.mp hp with h | h
      · rw [h]
      · exact ih n p h

theorem zip_pad_pairs :
    ∀ (l1 l2 : List Nat) (k1 k2 : Nat) (p : Nat × Nat),
      p ∈ (l1 ++ List.replicate k1 0).zip (l2 ++ List.replicate k2 0) →
      p ∈ l1.zip l2 ∨ p.1 = 0 ∨ p.2 = 0 := by
  intro l1
  induction l1 with
  | nil =>
    intro l2 k1 k2 p hp
    simp only [List.nil_append] at hp
    exact Or.inr (Or.inl (zip_fst_replicate_zero k1 _ p hp))
  | cons x xs ih =>
    intro l2 k1 k2 p hp
    cases l2 with
    | nil =>
      simp only [List.nil_append] at hp
      exact Or.inr (Or.inr (zip_snd_replicate_zero _ k2 p hp))
    | cons y ys =>
      simp only [List.cons_append, List.zip_cons_cons] at hp
      rcases List.mem_cons.mp hp with h | h
      · left
        rw [h]
        simp
      · rcases ih ys k1 k2 p h with h | h
        · left
          simp [h]
        · right
          exact h

/-- Bundled facts about `_primlit_vec_elmnt_match`. -/
theorem vecElmntMatch_spec (a b : Prim) :
    (vecElmntMatch a b).1.data_01.length = max a.data_01.length b.data_01.length ∧
    (vecElmntMatch a b).2.data_01.length = max a.data_01.length b.data_01.length ∧
    wordsVal (vecElmntMatch a b).1.data_01 = wordsVal a.data_01 ∧
    wordsVal (vecElmntMatch a b).2.data_01 = wordsVal b.data_01 ∧
    (vecElmntMatch a b).1.size = a.size ∧ (vecElmntMatch a b).2.size = b.size ∧
    (vecElmntMatch a b).1.signed = a.signed ∧ (vecElmntMatch a b).2.signed = b.signed ∧
    (∀ w ∈ (vecElmntMatch a b).1.data_01, w ∈ a.data_01 ∨ w = 0) ∧
    (∀ w ∈ (vecElmntMatch a b).2.data_01, w ∈ b.data_01 ∨ w = 0) ∧
    (∀ p ∈ (vecElmntMatch a b).1.data_01.zip (vecElmntMatch a b).2.data_01,
      p ∈ a.data_01.zip b.data_01 ∨ p.1 = 0 ∨ p.2 = 0) := by
  unfold vecElmntMatch padWords
  split_ifs with h1 h2
  · refine ⟨by simp; omega, by simp; omega, rfl, wordsVal_append_replicate_zero _ _,
      rfl, rfl, rfl, rfl, ?_, ?_, ?_⟩
    · intro w hw
      exact Or.inl hw
    · intro w hw
      rcases List.mem_append.mp hw with hw | hw
      · exact Or.inl hw
      · exact Or.inr (List.eq_of_mem_replicate hw)
    · intro p hp
      have := zip_pad_pairs a.data_01 b.data_01 0 (a.data_01.length - b.data_01.length) p
        (by simpa using hp)
      simpa using this
  · refine ⟨by simp; omega, by simp; omega, wordsVal_append_replicate_zero _ _, rfl,
      rfl, rfl, rfl, rfl, ?_, ?_, ?_⟩
    · intro w hw
      rcases List.mem_append.mp hw with hw | hw
      · exact Or.inl hw
      · exact Or.inr (List.eq_of_mem_replicate hw)
    · intro w hw
      exact Or.inl hw
    · intro p hp
      have := zip_pad_pairs a.data_01 b.data_01 (b.data_01.length - a.data_01.length) 0 p
        (by simpa using hp)
      simpa using this
  · refine ⟨by simp; omega, by simp; omega, rfl, rfl, rfl, rfl, rfl, rfl, ?_, ?_, ?_⟩
    · intro w hw
      exact Or.inl hw
    · intro w hw
      exact Or.inl hw
    · intro p hp
      exact Or.inl hp

/-- `_unsigned_primlit_add` computes the exact sum of the two word vectors
when that sum fits the matched word count (then no carry word is pushed). -/
theorem unsignedPrimlitAdd_spec (a b : Prim)
    (hba : ∀ w ∈ a.data_01, w < 2 ^ 64) (hbb : ∀ w ∈ b.data_01, w < 2 ^ 64)
    (hnp : ∀ p ∈ a.data_01.zip b.data_01, ¬(p.1 = 2 ^ 64 - 1 ∧ p.2 = 2 ^ 64 - 1))
    (hsum : wordsVal a.data_01 + wordsVal b.data_01 <
      2 ^ (64 * max a.data_01.length b.data_01.length)) :
    wordsVal (unsignedPrimlitAdd a b).data_01 =
      wordsVal a.data_01 + wordsVal b.data_01 ∧
    (unsignedPrimlitAdd a b).data_01.length = max a.data_01.length b.data_01.length ∧
    (∀ w ∈ (unsignedPrimlitAdd a b).data_01, w < 2 ^ 64) ∧
    (unsignedPrimlitAdd a b).size = a.size ∧
    (unsignedPrimlitAdd a b).signed = a.signed := by
  obtain ⟨hl1, hl2, hv1, hv2, hsz1, _, hsg1, _, hm1, hm2, hzip⟩ := vecElmntMatch_spec a b
  unfold unsignedPrimlitAdd
  rcases hvm : vecElmntMatch a b with ⟨a1, b1⟩
  rw [hvm] at hl1 hl2 hv1 hv2 hsz1 hsg1 hm1 hm2 hzip
  dsimp only at *
  have hba1 : ∀ w ∈ a1.data_01, w < 2 ^ 64 := by
    intro w hw
    rcases hm1 w hw with h | h
    · exact hba w h
    · rw [h]; positivity
  have hbb1 : ∀ w ∈ b1.data_01, w < 2 ^ 64 := by
    intro w hw
    rcases hm2 w hw with h | h
    · exact hbb w h
    · rw [h]; positivity
  have hnp1 : ∀ p ∈ a1.data_01.zip b1.data_01, ¬(p.1 = 2 ^ 64 - 1 ∧ p.2 = 2 ^ 64 - 1) := by
    intro p hp
    rcases hzip p hp with h | h | h
    · exact hnp p h
    · intro hc
      rw [h] at hc
      have := hc.1
      simp only [two_pow_64_eq] at this
      omega
    · intro hc
      rw [h] at hc
      have := hc.2
      simp only [two_pow_64_eq] at this
      omega
  obtain ⟨halen, hab, haval⟩ :=
    addWords_spec a1.data_01 b1.data_01 false (by omega) hba1 hbb1 hnp1
  have hcarry_false : (addWords a1.data_01 b1.data_01 false).2 = false := by
    by_contra hc
    rw [Bool.not_eq_false] at hc
    rw [hc] at haval
    simp only [Bool.cond_true, Bool.cond_false] at haval
    rw [hl1, hv1, hv2] at haval
    omega
  rw [hcarry_false]
  simp only [Bool.false_eq_true, if_false]
  rw [hcarry_false] at haval
  simp only [Bool.cond_false] at haval
  refine ⟨?_, ?_, ?_, hsz1, hsg1⟩
  · omega
  · rw [halen, hl1]
  · exact hab

theorem mem_zip_singleton (l : List Nat) (x : Nat) (p : Nat × Nat)
    (h : p ∈ l.zip [x]) : p.2 = x := by
  cases l with
  | nil => simp at h
  | cons a as =>
    simp only [List.zip_cons_cons, List.zip_nil_right] at h
    rcases List.mem_cons.mp h with h | h
    · rw [h]
    · simp at h

theorem any_ne_zero_replicate (k : Nat) :
    (List.replicate k (0 : Nat)).any (fun x => x != 0) = false := by
  induction k with
  | zero => rfl
  | succ n ih =>
    rw [List.replicate_succ]
    simp only [List.any_cons, ih]
    rfl

theorem contains_xz_to_4state (v : Prim) : contains_xz (to_4state v) = false := by
  unfold contains_xz to_4state
  simp only [List.any_cons, any_ne_zero_replicate]
  rfl

/-- `promotePair` never changes sizes, signedness, or the presence of a set
X/Z bit in either operand. -/
theorem promotePair_facts (a b : Prim) :
    (promotePair a b).1.size = a.size ∧ (promotePair a b).2.size = b.size ∧
    (promotePair a b).1.signed = a.signed ∧ (promotePair a b).2.signed = b.signed ∧
    contains_xz (promotePair a b).1 = contains_xz a ∧
    contains_xz (promotePair a b).2 = contains_xz b := by
  unfold promotePair
  split_ifs with h1 h2
  · refine ⟨rfl, rfl, rfl, rfl, ?_, rfl⟩
    rw [contains_xz_to_4state]
    simp only [Bool.not_eq_true'] at h2
    have hnone : a.data_xz = none := by
      cases hd : a.data_xz
      · rfl
      · unfold is_4state at h2
        rw [hd] at h2
        simp at h2
    unfold contains_xz
    rw [hnone]
  · refine ⟨rfl, rfl, rfl, rfl, rfl, ?_⟩
    rw [contains_xz_to_4state]
    have ha4 : is_4state a = true := by
      cases hia : is_4state a
      · rw [hia] at h2
        simp at h2
      · rfl
    have hb4 : is_4state b = false := by
      cases hib : is_4state b
      · rfl
      · rw [ha4, hib] at h1
        simp at h1
    have hnone : b.data_xz = none := by
      cases hd : b.data_xz
      · rfl
      · unfold is_4state at hb4
        rw [hd] at hb4
        simp at hb4
    unfold contains_xz
    rw [hnone]
  · exact ⟨rfl, rfl, rfl, rfl, rfl, rfl⟩

/-- The signedness rule of the poisoned paths:
`!(x == false || y == false)` is `x && y`. -/
theorem sgn_rule (x y : Bool) :
    (!(decide (x = false) || decide (y = false))) = (x && y) := by
  cases x <;> cases y <;> rfl

theorem contains_xz_of_bitXZ (v : Prim) (i : Nat) (h : bitXZ v i = true) :
    contains_xz v = true := by
  unfold bitXZ at h
  cases hx : v.data_xz with
  | none =>
    rw [hx] at h
    simp only [Option.getD_none] at h
    rw [show wordsVal [] = 0 from rfl, Nat.zero_testBit] at h
    exact absurd h (by simp)
  | some l =>
    rw [hx] at h
    simp only [Option.getD_some] at h
    have hgoal : contains_xz v = l.any (fun x => x != 0) := by
      unfold contains_xz
      rw [hx]
    rw [hgoal]
    by_contra hc
    simp only [Bool.not_eq_true] at hc
    have hall : ∀ w ∈ l, w = 0 := by
      intro w hw
      have hh := List.any_eq_false.mp hc w hw
      simpa using hh
    rw [(wordsVal_eq_zero_iff l).mpr hall, Nat.zero_testBit] at h
    exact absurd h (by simp)

/-- The state kept invariant by the X-filling cat loop: width `s`, all of
`data_01` zero, all `s` bits of `data_xz` set, with canonical word counts. -/
def AllXState (sgn : Bool) (s : Nat) (v : Prim) : Prop :=
  1 ≤ s ∧ v.size = s ∧ v.signed = sgn ∧
  v.data_01.length = (s + 63) / 64 ∧
  wordsVal v.data_01 = 0 ∧
  (∀ w ∈ v.data_01, w < 2 ^ 64) ∧
  ∃ xs, v.data_xz = some xs ∧ xs.length = (s + 63) / 64 ∧
    wordsVal xs = 2 ^ s - 1 ∧ (∀ w ∈ xs, w < 2 ^ 64)

theorem allXState_x0 (sgn sg2 : Bool) :
    AllXState sgn 1 ⟨[0], some [1], 1, sgn⟩ ∧
    AllXState sg2 1 ⟨[0], some [1], 1, sg2⟩ := by
  constructor <;>
    exact ⟨le_refl 1, rfl, rfl, rfl, rfl, by intro w hw; simp at hw; simp [hw],
      [1], rfl, rfl, rfl, by intro w hw; simp at hw; simp [hw]⟩

/-- One `lsl` step of the all-X state: the 0/1 lane stays zero, the X lane
keeps its top `s` bits set one position higher (its bit 0 becomes 0), and the
word counts stay canonical for the new size `s + 1`. -/
theorem lslStep_allX (sgn : Bool) (s : Nat) (v : Prim) (h : AllXState sgn s v) :
    (lslStep v).size = s + 1 ∧ (lslStep v).signed = sgn ∧
    (lslStep v).data_01.length = (s + 64) / 64 ∧
    wordsVal (lslStep v).data_01 = 0 ∧
    (∀ w ∈ (lslStep v).data_01, w < 2 ^ 64) ∧
    ∃ xs, (lslStep v).data_xz = some xs ∧ xs.length = (s + 64) / 64 ∧
      wordsVal xs = 2 ^ (s + 1) - 2 ∧ (∀ w ∈ xs, w < 2 ^ 64) := by
  obtain ⟨hs1, hsz, hsg, hlen, hval, hbnd, xs, hxz, hxlen, hxval, hxbnd⟩ := h
  obtain ⟨h01len, h01bnd, h01val⟩ := shlWords_spec v.data_01 false hbnd
  obtain ⟨hx1len, hx1bnd, hx1val⟩ := shlWords_spec xs false hxbnd
  simp only [Bool.cond_false] at h01val hx1val
  have hpos01 : 0 < 2 ^ (64 * v.data_01.length) := by positivity
  have hc1 : (shlWords v.data_01 false).2 = false := by
    cases hc : (shlWords v.data_01 false).2
    · rfl
    · rw [hc] at h01val
      simp only [Bool.cond_true] at h01val
      rw [hval] at h01val
      omega
  have h01val0 : wordsVal (shlWords v.data_01 false).1 = 0 := by
    rw [hc1] at h01val
    simp only [Bool.cond_false] at h01val
    rw [hval] at h01val
    omega
  have hL1 : s ≤ 64 * ((s + 63) / 64) := by omega
  have hps : (2 : Nat) ^ (s + 1) = 2 * 2 ^ s := by ring
  have h2s : 2 ≤ 2 ^ s := by
    calc 2 = 2 ^ 1 := by norm_num
    _ ≤ 2 ^ s := Nat.pow_le_pow_right (by norm_num) hs1
  rw [hxval] at hx1val
  rw [hxlen] at hx1val hx1len
  by_cases hcase : s = 64 * ((s + 63) / 64)
  · -- boundary: the X carry crosses the top word, a word is appended
    have hpe : (2 : Nat) ^ (64 * ((s + 63) / 64)) = 2 ^ s := by rw [← hcase]
    rw [hpe] at hx1val
    have hxfb : wordsVal (shlWords xs false).1 < 2 ^ s := by
      have hfb := wordsVal_lt (shlWords xs false).1 hx1bnd
      rw [hx1len, hpe] at hfb
      exact hfb
    have hcxz : (shlWords xs false).2 = true := by
      cases hc : (shlWords xs false).2
      · rw [hc] at hx1val
        simp only [Bool.cond_false] at hx1val
        omega
      · rfl
    rw [hcxz] at hx1val
    simp only [Bool.cond_true] at hx1val
    have hxv2 : wordsVal (shlWords xs false).1 = 2 ^ s - 2 := by omega
    have he : lslStep v = ⟨(shlWords v.data_01 false).1 ++ [0],
        some ((shlWords xs false).1 ++ [1]), v.size + 1, v.signed⟩ := by
      unfold lslStep
      rw [hxz]
      dsimp only
      rw [hc1, hcxz]
      rfl
    rw [he]
    refine ⟨by rw [hsz], hsg, ?_, ?_, ?_, (shlWords xs false).1 ++ [1], rfl, ?_, ?_, ?_⟩
    · show ((shlWords v.data_01 false).1 ++ [0]).length = (s + 64) / 64
      rw [List.length_append, h01len, hlen, List.length_singleton]
      omega
    · show wordsVal ((shlWords v.data_01 false).1 ++ [0]) = 0
      rw [wordsVal_append, h01val0]
      simp [wordsVal]
    · intro w hw
      rcases List.mem_append.mp hw with hw | hw
      · exact h01bnd w hw
      · simp at hw
        rw [hw]
        positivity
    · rw [List.length_append, hx1len, List.length_singleton]
      omega
    · rw [wordsVal_append, hx1len, hpe, hxv2]
      have hv1 : wordsVal [1] = 1 := by simp [wordsVal]
      rw [hv1, hps]
      omega
    · intro w hw
      rcases List.mem_append.mp hw with hw | hw
      · exact hx1bnd w hw
      · simp at hw
        rw [hw]
        exact Nat.one_lt_two_pow (by norm_num)
  · -- interior: no carry, no append, word count unchanged
    have hlt : s + 1 ≤ 64 * ((s + 63) / 64) := by omega
    have hple : (2 : Nat) ^ (s + 1) ≤ 2 ^ (64 * ((s + 63) / 64)) :=
      Nat.pow_le_pow_right (by norm_num) hlt
    have hcxz : (shlWords xs false).2 = false := by
      cases hc : (shlWords xs false).2
      · rfl
      · rw [hc] at hx1val
        simp only [Bool.cond_true] at hx1val
        omega
    rw [hcxz] at hx1val
    simp only [Bool.cond_false] at hx1val
    have hxv2 : wordsVal (shlWords xs false).1 = 2 ^ (s + 1) - 2 := by
      rw [hps]
      omega
    have hdec : decide (v.size + 1 > 64 * (shlWords v.data_01 false).1.length) = false := by
      rw [h01len, hlen, hsz]
      simp only [decide_eq_false_iff_not]
      omega
    have he : lslStep v = ⟨(shlWords v.data_01 false).1, some (shlWords xs false).1,
        v.size + 1, v.signed⟩ := by
      unfold lslStep
      rw [hxz]
      dsimp only
      rw [hc1, hcxz, hdec]
      simp only [Bool.false_and, Bool.and_false, Bool.false_eq_true, if_false]
    rw [he]
    refine ⟨by rw [hsz], hsg, ?_, h01val0, h01bnd, (shlWords xs false).1, rfl, ?_,
      hxv2, hx1bnd⟩
    · show (shlWords v.data_01 false).1.length = (s + 64) / 64
      rw [h01len, hlen]
      omega
    · rw [hx1len]
      omega

/-- One `cat` with the one-bit all-X constant extends the all-X state by one
bit: both the zero 0/1 lane and the all-ones X lane grow by a low bit (0 and 1
respectively). -/
theorem cat_allX (sgn sg2 : Bool) (s : Nat) (acc : Prim) (h : AllXState sgn s acc) :
    ∃ r, cat acc ⟨[0], some [1], 1, sg2⟩ = some r ∧ AllXState sgn (s + 1) r := by
  have hs1 : 1 ≤ s := h.1
  have haccsz : acc.size = s := h.2.1
  obtain ⟨hsize, hsig, hlen, hval, hbnd, xs2, hxz2, hxlen2, hxval2, hxbnd2⟩ :=
    lslStep_allX sgn s acc h
  have hv1 : wordsVal [1] = 1 := by simp [wordsVal]
  have hv0 : wordsVal [0] = 0 := by simp [wordsVal]
  have hmax : max ((s + 64) / 64) 1 = (s + 64) / 64 := by omega
  have h2s1 : 2 ≤ 2 ^ (s + 1) := by
    calc 2 = 2 ^ 1 := by norm_num
    _ ≤ 2 ^ (s + 1) := Nat.pow_le_pow_right (by norm_num) (by omega)
  have hple : (2 : Nat) ^ (s + 1) ≤ 2 ^ (64 * ((s + 64) / 64)) :=
    Nat.pow_le_pow_right (by norm_num) (by omega)
  have hcat : cat acc ⟨[0], some [1], 1, sg2⟩ =
      some { unsignedPrimlitAdd (lslStep acc) ⟨[0], some [1], 1, sg2⟩ with
             size := acc.size + 1,
             data_xz := some (unsignedPrimlitAdd ⟨xs2, none, (lslStep acc).size, false⟩
               ⟨[1], none, 1, false⟩).data_01 } := by
    unfold cat is_4state
    dsimp only
    rw [show lsl acc (1 : Nat) = lslStep acc from rfl, hxz2]
    rfl
  -- the X-lane sum: all `s + 1` bits set
  obtain ⟨hsv, hsl, hsb, _, _⟩ :=
    unsignedPrimlitAdd_spec ⟨xs2, none, (lslStep acc).size, false⟩ ⟨[1], none, 1, false⟩
      hxbnd2
      (by
        intro w hw
        simp at hw
        rw [hw]
        exact Nat.one_lt_two_pow (by norm_num))
      (by
        intro p hp hc
        have hp2 := mem_zip_singleton _ _ _ hp
        rw [hp2] at hc
        have h2 := hc.2
        simp only [two_pow_64_eq] at h2
        omega)
      (by
        dsimp only
        simp only [List.length_singleton]
        rw [hxval2, hv1, hxlen2, hmax]
        omega)
  dsimp only at hsv hsl hsb
  simp only [List.length_singleton] at hsl
  rw [hxval2, hv1] at hsv
  rw [hxlen2, hmax] at hsl
  -- the 0/1-lane sum: still zero
  obtain ⟨hrv, hrl, hrb, _, hrsg⟩ :=
    unsignedPrimlitAdd_spec (lslStep acc) ⟨[0], some [1], 1, sg2⟩
      hbnd
      (by
        intro w hw
        simp at hw
        rw [hw]
        positivity)
      (by
        intro p hp hc
        have hp2 := mem_zip_singleton _ _ _ hp
        rw [hp2] at hc
        have h2 := hc.2
        simp only [two_pow_64_eq] at h2
        omega)
      (by
        dsimp only
        rw [hval, hv0]
        positivity)
  dsimp only at hrv hrl hrb hrsg
  simp only [List.length_singleton] at hrl
  rw [hval, hv0] at hrv
  rw [hlen, hmax] at hrl
  rw [hsig] at hrsg
  refine ⟨_, hcat, ?_⟩
  refine ⟨by omega, ?_, ?_, ?_, ?_, ?_,
    (unsignedPrimlitAdd ⟨xs2, none, (lslStep acc).size, false⟩
      ⟨[1], none, 1, false⟩).data_01, rfl, ?_, ?_, ?_⟩
  · show acc.size + 1 = s + 1
    omega
  · exact hrsg
  · show (unsignedPrimlitAdd (lslStep acc) ⟨[0], some [1], 1, sg2⟩).data_01.length =
      (s + 1 + 63) / 64
    rw [hrl]
  · rw [hrv]
  · exact hrb
  · rw [hsl]
  · rw [hsv]
    omega
  · exact hsb

theorem catLoop_allX (sgn sg2 : Bool) :
    ∀ (k s : Nat) (acc : Prim), AllXState sgn s acc →
      ∃ r, catLoop k ⟨[0], some [1], 1, sg2⟩ acc = some r ∧ AllXState sgn (s + k) r := by
  intro k
  induction k with
  | zero =>
    intro s acc h
    exact ⟨acc, rfl, h⟩
  | succ n ih =>
    intro s acc h
    obtain ⟨r1, hr1, h1⟩ := cat_allX sgn sg2 s acc h
    obtain ⟨r2, hr2, h2⟩ := ih (s + 1) r1 h1
    refine ⟨r2, ?_, ?_⟩
    · show (match cat acc ⟨[0], some [1], 1, sg2⟩ with
        | none => none
        | some acc2 => catLoop n ⟨[0], some [1], 1, sg2⟩ acc2) = some r2
      rw [hr1]
      exact hr2
    · have he : s + 1 + n = s + (n + 1) := by omega
      rw [← he]
      exact h2

theorem allX_bits (sgn : Bool) (s : Nat) (r : Prim) (h : AllXState sgn s r) :
    ∀ i, i < s → (bit01 r i = false ∧ bitXZ r i = true) := by
  obtain ⟨hs1, hsz, hsg, hlen, hval, hbnd, xs, hxz, hxlen, hxval, hxbnd⟩ := h
  intro i hi
  constructor
  · unfold bit01
    rw [hval, Nat.zero_testBit]
  · unfold bitXZ
    rw [hxz]
    simp only [Option.getD_some]
    rw [hxval, Nat.testBit_two_pow_sub_one]
    simpa using hi

/-- C3: when either operand of `add_primlit` or `mult` carries an X/Z bit
inside its declared size, the result is the poisoned all-X value: width
`max(size) + 1` for addition and `a.size + b.size` for multiplication, every
bit of `data_01` clear and every bit of `data_xz` set, and the result signed
exactly when both operands are signed. -/
theorem C3_add_mult_poison_all_x (a b : Prim) (ha : wf a) (hb : wf b)
    (hxz : (∃ i, i < a.size ∧ bitXZ a i = true) ∨ (∃ i, i < b.size ∧ bitXZ b i = true)) :
    (∃ r, addPrimlit a b = some r ∧ r.size = max a.size b.size + 1 ∧
        r.signed = (a.signed && b.signed) ∧
        ∀ i, i < r.size → (bit01 r i = false ∧ bitXZ r i = true)) ∧
    (∃ r, mult a b = some r ∧ r.size = a.size + b.size ∧
        r.signed = (a.signed && b.signed) ∧
        ∀ i, i < r.size → (bit01 r i = false ∧ bitXZ r i = true)) := by
  have hcx : contains_xz a = true ∨ contains_xz b = true := by
    rcases hxz with ⟨i, _, hbit⟩ | ⟨i, _, hbit⟩
    · exact Or.inl (contains_xz_of_bitXZ a i hbit)
    · exact Or.inr (contains_xz_of_bitXZ b i hbit)
  obtain ⟨hp1sz, hp2sz, hp1sg, hp2sg, hp1cx, hp2cx⟩ := promotePair_facts a b
  rcases hpp : promotePair a b with ⟨a1, b1⟩
  rw [hpp] at hp1sz hp2sz hp1sg hp2sg hp1cx hp2cx
  dsimp only at hp1sz hp2sz hp1sg hp2sg hp1cx hp2cx
  have hcond : (!contains_xz a1 && !contains_xz b1) = false := by
    rw [hp1cx, hp2cx]
    rcases hcx with h | h <;> rw [h] <;> simp
  have hsa : 1 ≤ a.size := ha.1
  have hsb : 1 ≤ b.size := hb.1
  constructor
  · -- addition
    have hadd : addPrimlit a b =
        catLoop ((if a1.size < b1.size then b1.size else a1.size) + 1 - 1)
          ⟨[0], some [1], 1, !(decide (a1.signed = false) || decide (b1.signed = false))⟩
          ⟨[0], some [1], 1, !(decide (a1.signed = false) || decide (b1.signed = false))⟩ := by
      unfold addPrimlit
      rw [hpp]
      dsimp only
      rw [hcond]
      rfl
    rw [hp1sz, hp2sz, hp1sg, hp2sg, sgn_rule, Nat.add_sub_cancel] at hadd
    have hret : (if a.size < b.size then b.size else a.size) = max a.size b.size := by
      split_ifs <;> omega
    rw [hret] at hadd
    obtain ⟨r, hr, hstate⟩ := catLoop_allX (a.signed && b.signed) (a.signed && b.signed)
      (max a.size b.size) 1 ⟨[0], some [1], 1, a.signed && b.signed⟩
      (allXState_x0 (a.signed && b.signed) (a.signed && b.signed)).1
    have hrsz : r.size = 1 + max a.size b.size := hstate.2.1
    refine ⟨r, by rw [hadd]; exact hr, by omega, hstate.2.2.1, ?_⟩
    intro i hi
    exact allX_bits _ _ r hstate i (by omega)
  · -- multiplication
    have hmul : mult a b =
        (if a1.size + b1.size = 0 then none
         else catLoop (a1.size + b1.size - 1)
          ⟨[0], some [1], 1, !(decide (a1.signed = false) || decide (b1.signed = false))⟩
          ⟨[0], some [1], 1, !(decide (a1.signed = false) || decide (b1.signed = false))⟩) := by
      unfold mult
      rw [hpp]
      dsimp only
      rw [hcond]
      rfl
    rw [hp1sz, hp2sz, hp1sg, hp2sg, sgn_rule] at hmul
    rw [if_neg (by omega : ¬(a.size + b.size = 0))] at hmul
    obtain ⟨r, hr, hstate⟩ := catLoop_allX (a.signed && b.signed) (a.signed && b.signed)
      (a.size + b.size - 1) 1 ⟨[0], some [1], 1, a.signed && b.signed⟩
      (allXState_x0 (a.signed && b.signed) (a.signed && b.signed)).1
    have hrsz : r.size = 1 + (a.size + b.size - 1) := hstate.2.1
    refine ⟨r, by rw [hmul]; exact hr, by omega, hstate.2.2.1, ?_⟩
    intro i hi
    exact allX_bits _ _ r hstate i (by omega)

set_option maxRecDepth 100000 in
/-- C3 witness: two one-bit signed operands, the left one an X bit; both the
sum (2 bits) and the product (2 bits) are all-X and signed. -/
theorem C3_witness :
    wf (⟨[0], some [1], 1, true⟩ : Prim) ∧ wf (⟨[1], none, 1, true⟩ : Prim) ∧
    ((∃ r, addPrimlit ⟨[0], some [1], 1, true⟩ ⟨[1], none, 1, true⟩ = some r ∧
        r.size = max 1 1 + 1 ∧ r.signed = (true && true) ∧
        ∀ i, i < r.size → (bit01 r i = false ∧ bitXZ r i = true)) ∧
     (∃ r, mult ⟨[0], some [1], 1, true⟩ ⟨[1], none, 1, true⟩ = some r ∧
        r.size = 1 + 1 ∧ r.signed = (true && true) ∧
        ∀ i, i < r.size → (bit01 r i = false ∧ bitXZ r i = true))) :=
  ⟨by decide, by decide,
   C3_add_mult_poison_all_x ⟨[0], some [1], 1, true⟩ ⟨[1], none, 1, true⟩
     (by decide) (by decide) (Or.inl ⟨0, by decide, by decide⟩)⟩

/-! ## Claim C8 — idempotence of `_minimum_width` -/

theorem getLastD_mem (l : List Nat) (h : l ≠ []) (d : Nat) : l.getLastD d ∈ l := by
  rw [List.getLastD_eq_getLast?, List.getLast?_eq_getLast l h]
  simp

theorem getLastD_reverse (l : List Nat) (d : Nat) : l.reverse.getLastD d = l.headD d := by
  simp [List.getLastD_eq_getLast?, List.headD_eq_head?, List.getLast?_reverse]

/-- A list whose top word is nonzero is left alone by the zero-word strip. -/
theorem dropTopZeroWords_of_top_ne :
    ∀ (k : Nat) (l : List Nat), l.getLastD 1 ≠ 0 → dropTopZeroWords k l = l := by
  intro k
  induction k with
  | zero => intro l _; rfl
  | succ n ih =>
    intro l h
    unfold dropTopZeroWords
    rw [if_neg (by simpa using h)]
    exact ih l h

/-- With enough fuel the strip result is empty or has a nonzero top word. -/
theorem dropTopZeroWords_top :
    ∀ (k : Nat) (l : List Nat), l.length ≤ k →
      dropTopZeroWords k l = [] ∨ (dropTopZeroWords k l).getLastD 1 ≠ 0 := by
  intro k
  induction k with
  | zero =>
    intro l h
    have : l = [] := List.length_eq_zero.mp (by omega)
    subst this
    exact Or.inl rfl
  | succ n ih =>
    intro l h
    by_cases h0 : l.getLastD 1 = 0
    · have hne : l ≠ [] := by
        intro he
        subst he
        simp [List.getLastD] at h0
      unfold dropTopZeroWords
      rw [if_pos (by simpa using h0)]
      exact ih l.dropLast (by rw [List.length_dropLast]; omega)
    · right
      rw [dropTopZeroWords_of_top_ne (n + 1) l h0]
      exact h0

theorem eraseRep_subset : ∀ (k i : Nat) (l : List Nat), ∀ w ∈ eraseRep k i l, w ∈ l := by
  intro k
  induction k with
  | zero => intro i l w hw; exact hw
  | succ n ih =>
    intro i l w hw
    exact List.eraseIdx_subset l i (ih i (l.eraseIdx i) w hw)

theorem eraseRep_length : ∀ (k i : Nat) (l : List Nat), i + k ≤ l.length →
    (eraseRep k i l).length = l.length - k := by
  intro k
  induction k with
  | zero => intro i l _; rfl
  | succ n ih =>
    intro i l h
    unfold eraseRep
    rw [ih i (l.eraseIdx i) (by rw [List.length_eraseIdx_of_lt (by omega)]; omega),
      List.length_eraseIdx_of_lt (by omega)]
    omega

theorem shrinkXz_fields (u : Prim) :
    (shrinkXz u).data_01 = u.data_01 ∧ (shrinkXz u).size = u.size ∧
    (shrinkXz u).signed = u.signed := by
  unfold shrinkXz
  cases u.data_xz
  · exact ⟨rfl, rfl, rfl⟩
  · dsimp only
    split_ifs <;> exact ⟨rfl, rfl, rfl⟩

/-- The X/Z words surviving the shrink are words of the original lane, so a
clean value stays clean. -/
theorem shrinkXz_contains (u : Prim) (h : contains_xz u = false) :
    contains_xz (shrinkXz u) = false := by
  unfold shrinkXz
  cases hx : u.data_xz with
  | none =>
    exact h
  | some xs =>
    dsimp only
    unfold contains_xz at h
    rw [hx] at h
    split_ifs with hl
    · unfold contains_xz
      dsimp only
      rw [List.any_eq_false] at h ⊢
      intro x hxm
      exact h x (eraseRep_subset _ _ xs x hxm)
    · unfold contains_xz
      rw [hx]
      exact h

theorem shrinkXz_shrinkXz (u : Prim) : shrinkXz (shrinkXz u) = shrinkXz u := by
  unfold shrinkXz
  cases hx : u.data_xz with
  | none =>
    dsimp only
    rw [hx]
  | some xs =>
    dsimp only
    split_ifs with hl
    · dsimp only
      rw [if_neg]
      dsimp only
      rw [eraseRep_length (xs.length - u.data_01.length) (u.data_01.length - 1) xs
        (by omega)]
      omega
    · rw [hx]
      dsimp only
      rw [if_neg hl]

theorem fillOnesTF_ne_nil (l : List Nat) (h : l ≠ []) : ∃ w ∈ fillOnesTF l, w ≠ 0 := by
  cases l with
  | nil => exact absurd rfl h
  | cons w rest =>
    refine ⟨w + (2 ^ 64 - 2 ^ bitLen w), by unfold fillOnesTF; simp, ?_⟩
    rcases Nat.eq_zero_or_pos w with hw | hw
    · subst hw
      rw [bitLen_zero]
      simp only [pow_zero, two_pow_64_eq]
      omega
    · omega

theorem fillOnesTF_length : ∀ l : List Nat, (fillOnesTF l).length = l.length := by
  intro l
  induction l with
  | nil => rfl
  | cons w rest ih =>
    unfold fillOnesTF
    simp only [List.length_cons]
    split_ifs <;> simp [ih]

theorem beq_false_of_exists_ne_zero (l1 l2 : List Nat)
    (h1 : ∃ w ∈ l1, w ≠ 0) (h2 : ∀ w ∈ l2, w = 0) : (l1 == l2) = false := by
  cases hb : l1 == l2
  · rfl
  · exfalso
    have he : l1 = l2 := by
      have := hb
      rwa [beq_iff_eq] at this
    obtain ⟨w, hw, hne⟩ := h1
    exact hne (h2 w (he ▸ hw))

theorem all_zero_eq_replicate (l : List Nat) (h : ∀ w ∈ l, w = 0) :
    l = List.replicate l.length 0 := List.eq_replicate_of_mem h

theorem padWords_zero (u : Prim) : padWords u 0 = u := by
  unfold padWords
  cases u with
  | mk d x s sg =>
    simp only [List.replicate, List.append_nil, SvPrimaryLiteralIntegral.mk.injEq, true_and]
    cases x <;> simp

/-- When the left operand has at least as many words, the element match pads
only the right one. -/
theorem vecElmntMatch_right_pad (a b : Prim) (h : b.data_01.length ≤ a.data_01.length) :
    vecElmntMatch a b = (a, padWords b (a.data_01.length - b.data_01.length)) := by
  unfold vecElmntMatch
  split_ifs with h1 h2
  · rfl
  · omega
  · have he : a.data_01.length - b.data_01.length = 0 := by omega
    rw [he, padWords_zero]

theorem anyWordLt_zero_right (l : List Nat) (k : Nat) :
    anyWordLt l (List.replicate k 0) = false := by
  unfold anyWordLt
  rw [List.any_eq_false]
  intro p hp
  have h2 := zip_snd_replicate_zero l k p hp
  simp [h2]

theorem zero_cons_replicate (n : Nat) :
    (0 : Nat) :: List.replicate n 0 = List.replicate (n + 1) 0 := by
  rw [List.replicate_succ]

/-- `data_01` of the two results of `_matched_zero_extend`. -/
theorem matchedZeroExtend_data01 (a b : Prim) (h : b.data_01.length ≤ a.data_01.length) :
    (matchedZeroExtend a b).1.data_01 = a.data_01 ∧
    (matchedZeroExtend a b).2.data_01 =
      b.data_01 ++ List.replicate (a.data_01.length - b.data_01.length) 0 := by
  unfold matchedZeroExtend
  rw [vecElmntMatch_right_pad a b h]
  exact ⟨rfl, rfl⟩

/-- `data_01` of the two results of `_matched_sign_extend`, when the right
operand is non-negative with a clean MSB (as `signed zero` always is). -/
theorem matchedSignExtend_data01 (a b : Prim) (h : b.data_01.length ≤ a.data_01.length)
    (hrn : isNegativeChk b = false) (hrx : is_set_msb_xz b = false) :
    (matchedSignExtend a b).1.data_01 =
      (if isNegativeChk a || (is_set_msb_01 a && is_set_msb_xz a) then
        (fillOnesTF a.data_01.reverse).reverse else a.data_01) ∧
    (matchedSignExtend a b).2.data_01 =
      b.data_01 ++ List.replicate (a.data_01.length - b.data_01.length) 0 := by
  unfold matchedSignExtend
  rw [vecElmntMatch_right_pad a b h]
  dsimp only
  rw [hrn, hrx]
  simp only [Bool.and_false, Bool.or_false, Bool.false_or, Bool.false_eq_true, if_false]
  constructor
  · split_ifs <;> rfl
  · rfl

/-- `caseEqSameSign` against a clean zero yields `bit1b_0` as soon as the left
operand is four-state-dirty. -/
theorem caseEqSameSign_contains (a b0 : Prim) (hca : contains_xz a = true)
    (hcb : contains_xz b0 = false) : caseEqSameSign a b0 = bit1b_0 := by
  unfold caseEqSameSign
  rw [hca, hcb]
  rfl

/-- `caseEqSameSign` against a clean zero yields `bit1b_0` whenever some word
of the left operand is nonzero. -/
theorem caseEqSameSign_nonzero (a b0 : Prim) (hb01 : b0.data_01 = [0])
    (hbxz : b0.data_xz = none) (hrn : isNegativeChk b0 = false)
    (hL : 1 ≤ a.data_01.length) (hnz : ∃ w ∈ a.data_01, w ≠ 0) :
    caseEqSameSign a b0 = bit1b_0 := by
  have hcb : contains_xz b0 = false := by
    unfold contains_xz
    rw [hbxz]
  have hrx : is_set_msb_xz b0 = false := by
    unfold is_set_msb_xz
    rw [hbxz]
  have hlen : b0.data_01.length ≤ a.data_01.length := by rw [hb01]; simpa using hL
  have hzrep : ∀ w ∈ b0.data_01 ++
      List.replicate (a.data_01.length - b0.data_01.length) 0, w = 0 := by
    intro w hw
    rcases List.mem_append.mp hw with hw | hw
    · rw [hb01] at hw
      simpa using hw
    · exact List.eq_of_mem_replicate hw
  cases hca : contains_xz a with
  | true => exact caseEqSameSign_contains a b0 hca hcb
  | false =>
    unfold caseEqSameSign
    rw [hca, hcb]
    simp only [bne_self_eq_false, Bool.false_eq_true, if_false, Bool.and_self]
    cases hsg : a.signed with
    | false =>
      rw [if_neg Bool.false_ne_true]
      obtain ⟨h1, h2⟩ := matchedZeroExtend_data01 a b0 hlen
      rw [h1, h2, beq_false_of_exists_ne_zero _ _ hnz hzrep]
      rfl
    | true =>
      rw [if_pos rfl]
      obtain ⟨h1, h2⟩ := matchedSignExtend_data01 a b0 hlen hrn hrx
      rw [h1, h2]
      have hanil : a.data_01.reverse ≠ [] := by
        intro h0
        rw [← List.length_eq_zero, List.length_reverse] at h0
        omega
      have hnz2 : ∃ w ∈ (if isNegativeChk a || (is_set_msb_01 a && is_set_msb_xz a) then
          (fillOnesTF a.data_01.reverse).reverse else a.data_01), w ≠ 0 := by
        split_ifs
        · obtain ⟨w, hw, hwne⟩ := fillOnesTF_ne_nil _ hanil
          exact ⟨w, List.mem_reverse.mpr hw, hwne⟩
        · exact hnz
      rw [beq_false_of_exists_ne_zero _ _ hnz2 hzrep]
      rfl

/-- `caseEqSameSign` against a clean zero yields `bit1b_1` on a clean all-zero
left operand whose MSB test is clear. -/
theorem caseEqSameSign_zero (a b0 : Prim) (hb01 : b0.data_01 = [0])
    (hbxz : b0.data_xz = none) (hrn : isNegativeChk b0 = false)
    (hL : 1 ≤ a.data_01.length) (hca : contains_xz a = false)
    (hmsb : is_set_msb_01 a = false) (hz : ∀ w ∈ a.data_01, w = 0) :
    caseEqSameSign a b0 = bit1b_1 := by
  have hcb : contains_xz b0 = false := by
    unfold contains_xz
    rw [hbxz]
  have hrx : is_set_msb_xz b0 = false := by
    unfold is_set_msb_xz
    rw [hbxz]
  have hlen : b0.data_01.length ≤ a.data_01.length := by rw [hb01]; simpa using hL
  have hrepeq : a.data_01 =
      b0.data_01 ++ List.replicate (a.data_01.length - b0.data_01.length) 0 := by
    rw [hb01, all_zero_eq_replicate a.data_01 hz]
    simp only [List.length_replicate, List.length_singleton]
    rw [show ([0] : List Nat) = List.replicate 1 0 from rfl, ← List.replicate_add]
    congr 1
    omega
  unfold caseEqSameSign
  rw [hca, hcb]
  simp only [bne_self_eq_false, Bool.false_eq_true, if_false, Bool.and_self]
  cases hsg : a.signed with
  | false =>
    rw [if_neg Bool.false_ne_true]
    obtain ⟨h1, h2⟩ := matchedZeroExtend_data01 a b0 hlen
    rw [h1, h2, ← hrepeq]
    simp
  | true =>
    rw [if_pos rfl]
    obtain ⟨h1, h2⟩ := matchedSignExtend_data01 a b0 hlen hrn hrx
    have hfill : (isNegativeChk a || (is_set_msb_01 a && is_set_msb_xz a)) = false := by
      unfold isNegativeChk
      rw [hmsb]
      simp
    rw [hfill] at h1
    simp only [Bool.false_eq_true, if_false] at h1
    rw [h1, h2, ← hrepeq]
    simp

theorem is_zero_false_of_nonzero (v : Prim) (hnz : ∃ w ∈ v.data_01, w ≠ 0) :
    is_zero v = false := by
  have hL : 1 ≤ v.data_01.length := by
    obtain ⟨w, hw, _⟩ := hnz
    have hne : v.data_01 ≠ [] := by
      intro h0
      rw [h0] at hw
      simp at hw
    have := List.length_pos.mpr hne
    omega
  unfold is_zero case_eq
  cases hs : v.signed with
  | false =>
    rw [if_pos (by rfl)]
    rw [caseEqSameSign_nonzero
      { data_01 := v.data_01, data_xz := v.data_xz, size := v.size, signed := false }
      { data_01 := signedZero.data_01, data_xz := signedZero.data_xz,
        size := signedZero.size, signed := false }
      rfl rfl (by decide) hL hnz]
    rfl
  | true =>
    rw [if_neg (by decide)]
    rw [caseEqSameSign_nonzero v signedZero rfl rfl (by decide) hL hnz]
    rfl

theorem is_zero_true_of_zero (v : Prim) (hca : contains_xz v = false)
    (hmsb : is_set_msb_01 v = false) (hL : 1 ≤ v.data_01.length)
    (hz : ∀ w ∈ v.data_01, w = 0) : is_zero v = true := by
  unfold is_zero case_eq
  cases hs : v.signed with
  | false =>
    rw [if_pos (by rfl)]
    rw [caseEqSameSign_zero
      { data_01 := v.data_01, data_xz := v.data_xz, size := v.size, signed := false }
      { data_01 := signedZero.data_01, data_xz := signedZero.data_xz,
        size := signedZero.size, signed := false }
      rfl rfl (by decide) hL (by rw [contains_xz_set_signed]; exact hca) hmsb hz]
    rfl
  | true =>
    rw [if_neg (by decide)]
    rw [caseEqSameSign_zero v signedZero rfl rfl (by decide) hL hca hmsb hz]
    rfl

theorem contains_xz_of_is_zero (v : Prim) (h : is_zero v = true) :
    contains_xz v = false := by
  by_contra hc
  rw [Bool.not_eq_false] at hc
  unfold is_zero case_eq at h
  cases hs : v.signed with
  | false =>
    rw [hs, if_pos (by rfl)] at h
    rw [caseEqSameSign_contains
      { data_01 := v.data_01, data_xz := v.data_xz, size := v.size, signed := false }
      { data_01 := signedZero.data_01, data_xz := signedZero.data_xz,
        size := signedZero.size, signed := false }
      (by rw [contains_xz_set_signed]; exact hc) rfl] at h
    exact absurd h (by decide)
  | true =>
    rw [hs, if_neg (by decide)] at h
    rw [caseEqSameSign_contains v signedZero hc rfl] at h
    exact absurd h (by decide)

theorem ltUnsigned_zero (a b0 : Prim) (hb01 : b0.data_01 = [0])
    (hL : 1 ≤ a.data_01.length) : ltUnsigned a b0 = logic1b_0 := by
  have hlen : b0.data_01.length ≤ a.data_01.length := by rw [hb01]; simpa using hL
  obtain ⟨h1, h2⟩ := matchedZeroExtend_data01 a b0 hlen
  have hb : b0.data_01 ++ List.replicate (a.data_01.length - b0.data_01.length) 0 =
      List.replicate a.data_01.length 0 := by
    rw [hb01]
    simp only [List.length_singleton]
    rw [show ([0] : List Nat) = List.replicate 1 0 from rfl, ← List.replicate_add]
    congr 1
    omega
  unfold ltUnsigned
  rcases hmz : matchedZeroExtend a b0 with ⟨a1, b1⟩
  rw [hmz] at h1 h2
  dsimp only at h1 h2 ⊢
  rw [h1, h2, hb, anyWordLt_zero_right]
  rfl

theorem is_negative_contains (v : Prim) (hc : contains_xz v = true) :
    is_negative v = false := by
  unfold is_negative lt
  rw [hc]
  rfl

theorem is_negative_char (v : Prim) (hc : contains_xz v = false)
    (hL : 1 ≤ v.data_01.length) :
    is_negative v = (v.signed && is_set_msb_01 v) := by
  unfold is_negative lt
  rw [hc]
  rw [if_neg (by decide)]
  cases hs : v.signed with
  | false =>
    rw [if_pos (by rfl)]
    unfold ltSameSign
    rw [if_neg (by simp)]
    rw [ltUnsigned_zero
      { data_01 := v.data_01, data_xz := v.data_xz, size := v.size, signed := false }
      { data_01 := signedZero.data_01, data_xz := signedZero.data_xz,
        size := signedZero.size, signed := false }
      rfl hL]
    rfl
  | true =>
    rw [if_neg (by decide)]
    unfold ltSameSign
    rw [hs, if_pos rfl]
    have hrneg : is_set_msb_01 signedZero = false := by decide
    rw [hrneg]
    simp only [Bool.not_false, Bool.and_true]
    cases hm : is_set_msb_01 v with
    | true =>
      rw [if_pos rfl]
      rfl
    | false =>
      rw [if_neg (by simp)]
      simp only [Bool.not_false, Bool.and_false, Bool.false_eq_true, if_false]
      rw [ltUnsigned_zero
        { data_01 := v.data_01, data_xz := v.data_xz, size := v.size, signed := false }
        { data_01 := signedZero.data_01, data_xz := signedZero.data_xz,
          size := signedZero.size, signed := false }
        rfl hL]
      rfl

theorem stripWord_succ (f w s : Nat) (stop : Bool) :
    stripWord (f + 1) w s stop =
      if w = 0 then none
      else
        if lz (w - 2 ^ (64 - lz w - 1)) == 64 && stop then some (w, s, true)
        else if lz (w - 2 ^ (64 - lz w - 1)) != lz w + 1 then some (w, s, true)
        else if lz (w - 2 ^ (64 - lz w - 1)) == 64 then
          some (w - 2 ^ (64 - lz w - 1), s - 1, false)
        else stripWord f (w - 2 ^ (64 - lz w - 1)) (s - 1) stop := rfl

theorem bitLen_le_of_lt_pow {n k : Nat} (h : n < 2 ^ k) (hk : k ≤ 64) : bitLen n ≤ k := by
  rcases Nat.eq_zero_or_pos n with h0 | h0
  · subst h0
    rw [bitLen_zero]
    omega
  · have hn64 : n < 2 ^ 64 := lt_of_lt_of_le h (Nat.pow_le_pow_right (by norm_num) hk)
    obtain ⟨hpos, hlow, _⟩ := bitLen_spec h0 hn64
    by_contra hgt
    have hk1 : k ≤ bitLen n - 1 := by omega
    have : (2 : Nat) ^ k ≤ 2 ^ (bitLen n - 1) := Nat.pow_le_pow_right (by norm_num) hk1
    omega

/-- A `min_num_found` return of the negative-branch word loop is a fixed
point: re-running the loop on the returned word returns it unchanged. -/
theorem stripWord_fix :
    ∀ (f w s : Nat) (stop : Bool) (w2 s2 : Nat),
      stripWord f w s stop = some (w2, s2, true) →
      stripWord 65 w2 s2 stop = some (w2, s2, true) := by
  intro f
  induction f with
  | zero =>
    intro w s stop w2 s2 h
    exact absurd h (by simp [stripWord])
  | succ n ih =>
    intro w s stop w2 s2 h
    rw [stripWord_succ] at h
    by_cases h0 : w = 0
    · rw [if_pos h0] at h
      exact absurd h (by simp)
    rw [if_neg h0] at h
    by_cases h1 : (lz (w - 2 ^ (64 - lz w - 1)) == 64 && stop) = true
    · rw [if_pos h1] at h
      have hinj := Option.some.inj h
      rw [Prod.mk.injEq, Prod.mk.injEq] at hinj
      obtain ⟨hw, hs, -⟩ := hinj
      subst hw
      subst hs
      rw [show (65 : Nat) = 64 + 1 from rfl, stripWord_succ, if_neg h0, if_pos h1]
    rw [if_neg h1] at h
    by_cases h2 : (lz (w - 2 ^ (64 - lz w - 1)) != lz w + 1) = true
    · rw [if_pos h2] at h
      have hinj := Option.some.inj h
      rw [Prod.mk.injEq, Prod.mk.injEq] at hinj
      obtain ⟨hw, hs, -⟩ := hinj
      subst hw
      subst hs
      rw [show (65 : Nat) = 64 + 1 from rfl, stripWord_succ, if_neg h0, if_neg h1,
        if_pos h2]
    rw [if_neg h2] at h
    by_cases h3 : (lz (w - 2 ^ (64 - lz w - 1)) == 64) = true
    · rw [if_pos h3] at h
      have hinj := Option.some.inj h
      rw [Prod.mk.injEq, Prod.mk.injEq] at hinj
      exact absurd hinj.2.2 (by simp)
    · rw [if_neg h3] at h
      exact ih _ _ _ _ _ h

/-- Full case analysis of the negative-branch word loop: either it stops with
a nonzero word whose bit length accounts exactly for the size decrease, or it
zeroes the word (only with `stop = false`), consuming `bitLen w` size bits. -/
theorem stripWord_spec :
    ∀ (f w s : Nat) (stop : Bool), w ≠ 0 → w < 2 ^ 64 → bitLen w ≤ f → bitLen w ≤ s →
      (∃ w2 s2, stripWord f w s stop = some (w2, s2, true) ∧ w2 ≠ 0 ∧ w2 < 2 ^ 64 ∧
        1 ≤ bitLen w2 ∧ bitLen w2 ≤ bitLen w ∧ s2 + (bitLen w - bitLen w2) = s) ∨
      (stripWord f w s stop = some (0, s - bitLen w, false) ∧ stop = false) := by
  intro f
  induction f with
  | zero =>
    intro w s stop hw0 hwb hf _
    exfalso
    have : bitLen w = 0 := by omega
    exact hw0 ((bitLen_eq_zero_iff hwb).mp this)
  | succ n ih =>
    intro w s stop hw0 hwb hf hs
    obtain ⟨hblpos, hbllow, hblhigh⟩ := bitLen_spec (Nat.pos_of_ne_zero hw0) hwb
    have hbl64 : bitLen w ≤ 64 := bitLen_le hwb
    have hexp : 64 - lz w - 1 = bitLen w - 1 := by
      unfold lz
      omega
    have hpow2 : (2 : Nat) ^ bitLen w = 2 * 2 ^ (bitLen w - 1) := by
      have h1 : bitLen w - 1 + 1 = bitLen w := by omega
      calc (2 : Nat) ^ bitLen w = 2 ^ (bitLen w - 1 + 1) := by rw [h1]
      _ = 2 ^ (bitLen w - 1) * 2 := pow_succ 2 _
      _ = 2 * 2 ^ (bitLen w - 1) := by ring
    have hmlt : w - 2 ^ (bitLen w - 1) < 2 ^ (bitLen w - 1) := by omega
    have hmb : w - 2 ^ (bitLen w - 1) < 2 ^ 64 := by omega
    have hblm : bitLen (w - 2 ^ (bitLen w - 1)) ≤ bitLen w - 1 :=
      bitLen_le_of_lt_pow hmlt (by omega)
    rw [stripWord_succ, if_neg hw0, hexp]
    by_cases hm0 : w - 2 ^ (bitLen w - 1) = 0
    · -- the word is a pure sign bit
      by_cases hstop : stop = true
      · left
        refine ⟨w, s, ?_, hw0, hwb, by omega, le_refl _, by omega⟩
        rw [if_pos (by rw [hm0, hstop]; rfl)]
      · -- cleared word: only reachable when the word is 1
        have hstf : stop = false := by
          cases stop
          · rfl
          · exact absurd rfl hstop
        by_cases hbl1 : bitLen w = 1
        · right
          refine ⟨?_, hstf⟩
          rw [if_neg (by rw [hm0, hstf]; simp), if_neg ?c2, if_pos (by rw [hm0]; rfl),
            hm0, hbl1]
          case c2 =>
            rw [hm0]
            unfold lz
            rw [bitLen_zero, hbl1]
            simp
        · -- single sign bit above bit 0: the `post != pre + 1` exit fires
          left
          refine ⟨w, s, ?_, hw0, hwb, by omega, le_refl _, by omega⟩
          rw [if_neg (by rw [hm0, hstf]; simp), if_pos (by
            rw [hm0]
            unfold lz
            rw [bitLen_zero]
            simp only [bne_iff_ne]
            omega)]
    · -- the bit below the sign bit decides between exit and loop
      have hblm_pos : 1 ≤ bitLen (w - 2 ^ (bitLen w - 1)) := by
        by_contra hz
        exact hm0 ((bitLen_eq_zero_iff hmb).mp (by omega))
      have hc1 : (lz (w - 2 ^ (bitLen w - 1)) == 64) = false := by
        simp only [beq_eq_false_iff_ne, ne_eq]
        unfold lz
        omega
      by_cases hnext : bitLen (w - 2 ^ (bitLen w - 1)) = bitLen w - 1
      · -- loop: strip the sign bit and recurse
        rw [if_neg (by rw [hc1]; simp), if_neg (by
            simp only [bne_iff_ne, ne_eq, Decidable.not_not]
            unfold lz
            omega), if_neg (by rw [hc1]; simp)]
        rcases ih (w - 2 ^ (bitLen w - 1)) (s - 1) stop hm0 hmb (by omega) (by omega)
          with ⟨w2, s2, heq, hprops⟩ | ⟨heq, hstf⟩
        · left
          exact ⟨w2, s2, heq, hprops.1, hprops.2.1, hprops.2.2.1, by omega, by omega⟩
        · right
          rw [heq]
          refine ⟨?_, hstf⟩
          have hsub : s - 1 - bitLen (w - 2 ^ (bitLen w - 1)) = s - bitLen w := by omega
          rw [hsub]
      · -- the next bit is clear: exit keeping the current word
        left
        refine ⟨w, s, ?_, hw0, hwb, by omega, le_refl _, by omega⟩
        rw [if_neg (by rw [hc1]; simp), if_pos (by
          simp only [bne_iff_ne, ne_eq]
          unfold lz
          omega)]

/-- The outer scan of the negative branch: a successful scan re-runs to the
same result, and its output satisfies the MSB size invariant that makes the
canonicalised value read as negative again. -/
theorem negStrip_spec :
    ∀ (l : List Nat) (s : Nat), (∀ x ∈ l, x < 2 ^ 64) →
      (l ≠ [] → l.headD 0 ≠ 0 ∧ s = 64 * (l.length - 1) + bitLen (l.headD 0)) →
      ∀ tf s2, negStrip l s = some (tf, s2) →
        negStrip tf s2 = some (tf, s2) ∧
        (l ≠ [] → tf ≠ [] ∧ s2 = 64 * (tf.length - 1) + bitLen (tf.headD 0) ∧
          tf.headD 0 ≠ 0) := by
  intro l
  induction l with
  | nil =>
    intro s _ _ tf s2 h
    have hinj := Option.some.inj h
    rw [Prod.mk.injEq] at hinj
    obtain ⟨htf, hs2⟩ := hinj
    subst htf
    subst hs2
    exact ⟨rfl, fun hne => absurd rfl hne⟩
  | cons w rest ih =>
    intro s hb hinv tf s2 h
    obtain ⟨hw0, hs⟩ := hinv (by simp)
    have hw0' : w ≠ 0 := by simpa using hw0
    have hs' : s = 64 * rest.length + bitLen w := by simpa using hs
    have hwb : w < 2 ^ 64 := hb w (by simp)
    have hbl64w : bitLen w ≤ 64 := bitLen_le hwb
    unfold negStrip at h
    dsimp only at h
    rcases stripWord_spec 65 w s (rest.isEmpty || !(lz (rest.headD 0) == 0)) hw0' hwb
        (by omega) (by omega)
      with ⟨w2, s3, heq, hne, hb2, hblpos, hble, hsum⟩ | ⟨heq, hstop⟩
    · rw [heq] at h
      have hinj := Option.some.inj h
      rw [Prod.mk.injEq] at hinj
      obtain ⟨htf, hs2⟩ := hinj
      subst htf
      subst hs2
      constructor
      · show negStrip (w2 :: rest) s3 = some (w2 :: rest, s3)
        unfold negStrip
        dsimp only
        rw [stripWord_fix 65 w s _ w2 s3 heq]
      · intro _
        refine ⟨by simp, ?_, hne⟩
        simp only [List.length_cons, List.headD_cons]
        omega
    · rw [heq] at h
      obtain ⟨h1e, h2e⟩ := Bool.or_eq_false_iff.mp hstop
      have hrne : rest ≠ [] := by
        intro he
        subst he
        simp at h1e
      have hhb : rest.headD 0 < 2 ^ 64 := by
        cases rest with
        | nil => exact absurd rfl hrne
        | cons y ys => exact hb y (by simp)
      have hlz0 : lz (rest.headD 0) = 0 := by
        have h2t : (lz (rest.headD 0) == 0) = true := by
          cases hc : (lz (rest.headD 0) == 0)
          · rw [hc] at h2e
            simp at h2e
          · rfl
        simpa using h2t
      have hbl64 : bitLen (rest.headD 0) = 64 := by
        have := bitLen_le hhb
        unfold lz at hlz0
        omega
      have hrh0 : rest.headD 0 ≠ 0 := by
        intro h0
        rw [h0, bitLen_zero] at hbl64
        exact absurd hbl64 (by omega)
      have hlen1 : 1 ≤ rest.length := by
        cases rest with
        | nil => exact absurd rfl hrne
        | cons y ys => simp
      obtain ⟨hid, hclause⟩ := ih (s - bitLen w) (fun x hx => hb x (by simp [hx]))
        (fun _ => ⟨hrh0, by rw [hbl64]; omega⟩) tf s2 h
      exact ⟨hid, fun _ => hclause hrne⟩

theorem getLastD_eq_reverse_headD (l : List Nat) (d : Nat) :
    l.getLastD d = l.reverse.headD d := by
  have h := getLastD_reverse l.reverse d
  rwa [List.reverse_reverse] at h

theorem getLastD_ne_nil (l : List Nat) (h : l ≠ []) (d1 d2 : Nat) :
    l.getLastD d1 = l.getLastD d2 := by
  rw [List.getLastD_eq_getLast?, List.getLastD_eq_getLast?, List.getLast?_eq_getLast l h]
  rfl

theorem prim_update_eta (u : Prim) (d : List Nat) (s : Nat) (hd : u.data_01 = d)
    (hs : u.size = s) : ({ u with data_01 := d, size := s } : Prim) = u := by
  cases u with
  | mk d0 x0 s0 g0 =>
    dsimp only at hd hs
    subst hd
    subst hs
    rfl

theorem dropTopZeroWords_concat_zero (l : List Nat) (h : l.getLastD 1 ≠ 0) (k : Nat) :
    dropTopZeroWords (k + 1) (l ++ [0]) = l := by
  unfold dropTopZeroWords
  rw [if_pos (by rw [List.getLastD_concat]; rfl)]
  rw [List.dropLast_concat]
  exact dropTopZeroWords_of_top_ne k l h

/-- Second application on a canonicalised zero (either signedness): the zero
branch fires again and rebuilds the same record. -/
theorem minimumWidth_zero_fix (v : Prim) (hcx : contains_xz v = false) :
    minimumWidth (shrinkXz { v with data_01 := [0], size := 1 }) =
      some (shrinkXz { v with data_01 := [0], size := 1 }) := by
  set r1 : Prim := { v with data_01 := [0], size := 1 } with hr1
  obtain ⟨hd, hsz, hsg⟩ := shrinkXz_fields r1
  have hd' : (shrinkXz r1).data_01 = [0] := hd
  have hsz' : (shrinkXz r1).size = 1 := hsz
  have hcx' : contains_xz (shrinkXz r1) = false := shrinkXz_contains r1 hcx
  have hmsb : is_set_msb_01 (shrinkXz r1) = false := by
    unfold is_set_msb_01
    rw [hd', hsz']
    decide
  have hz : is_zero (shrinkXz r1) = true := by
    apply is_zero_true_of_zero _ hcx' hmsb
    · rw [hd']
      simp
    · rw [hd']
      intro w hw
      simpa using hw
  unfold minimumWidth
  by_cases hsgn : (shrinkXz r1).signed = false
  · rw [if_pos hsgn, if_pos hz]
    rw [prim_update_eta _ _ _ hd' hsz', shrinkXz_shrinkXz]
  · rw [if_neg hsgn]
    have hneg : is_negative (shrinkXz r1) = false := by
      rw [is_negative_char _ hcx' (by rw [hd']; simp), hmsb]
      simp
    rw [if_neg (by rw [hneg]; simp), if_pos hz]
    rw [prim_update_eta _ _ _ hd' hsz', shrinkXz_shrinkXz]

/-- Second application on a canonicalised nonzero unsigned value. -/
theorem minimumWidth_unsigned_fix (r : Prim) (hsg : r.signed = false)
    (hne : r.data_01 ≠ []) (htop : r.data_01.getLastD 1 ≠ 0)
    (hsz : r.size = (64 - lz (r.data_01.getLastD 0)) + (r.data_01.length - 1) * 64)
    (hshr : shrinkXz r = r) :
    minimumWidth r = some r := by
  have htop0 : r.data_01.getLastD 0 ≠ 0 := by
    rw [getLastD_ne_nil r.data_01 hne 0 1]
    exact htop
  have hiz : is_zero r = false :=
    is_zero_false_of_nonzero r ⟨r.data_01.getLastD 0, getLastD_mem _ hne 0, htop0⟩
  unfold minimumWidth
  rw [if_pos hsg, if_neg (by rw [hiz]; simp)]
  rw [dropTopZeroWords_of_top_ne _ _ htop]
  cases hld : r.data_01 with
  | nil => exact absurd hld hne
  | cons x xs =>
    show some (shrinkXz
      { data_01 := x :: xs, data_xz := r.data_xz,
        size := 64 - lz ((x :: xs).getLastD 0) + ((x :: xs).length - 1) * 64,
        signed := r.signed }) = some r
    rw [← hld, ← hsz, prim_update_eta r _ _ rfl rfl, hshr]

/-- Second application on a canonicalised nonzero non-negative signed value
(`l` is the zero-stripped word vector of the first application). -/
theorem minimumWidth_signed_pos_fix (r : Prim) (l : List Nat) (hsg : r.signed = true)
    (hlne : l ≠ []) (htop : l.getLastD 1 ≠ 0)
    (hd : r.data_01 = (if lz (l.getLastD 0) == 0 then l ++ [0] else l))
    (hsz : r.size = (64 - lz (r.data_01.getLastD 0) + 1) + (r.data_01.length - 1) * 64)
    (hshr : shrinkXz r = r) :
    minimumWidth r = some r := by
  have htop0 : l.getLastD 0 ≠ 0 := by
    rw [getLastD_ne_nil l hlne 0 1]
    exact htop
  have hlzle : lz (r.data_01.getLastD 0) ≤ 64 := by
    unfold lz
    omega
  by_cases hlz : (lz (l.getLastD 0) == 0) = true
  · -- a zero word was pushed on top; the scan strips it and pushes it back
    have hdB : r.data_01 = l ++ [0] := by
      rw [hd, if_pos hlz]
    have hrtop : r.data_01.getLastD 0 = 0 := by
      rw [hdB, List.getLastD_concat]
    have hlzpos : 1 ≤ lz (r.data_01.getLastD 0) := by
      rw [hrtop]
      decide
    have hlen : 1 ≤ r.data_01.length := by
      rw [hdB]
      simp
    have hiz : is_zero r = false := by
      apply is_zero_false_of_nonzero r
      refine ⟨l.getLastD 0, ?_, htop0⟩
      rw [hdB]
      exact List.mem_append.mpr (Or.inl (getLastD_mem l hlne 0))
    have hmsb : is_set_msb_01 r = false := by
      unfold is_set_msb_01
      have h1 : r.size - (r.data_01.length - 1) * 64 =
          64 - lz (r.data_01.getLastD 0) + 1 := by omega
      rw [h1]
      simp only [beq_eq_false_iff_ne, ne_eq]
      omega
    have hneg : is_negative r = false := by
      cases hc : contains_xz r with
      | true => exact is_negative_contains r hc
      | false =>
        rw [is_negative_char r hc hlen, hmsb]
        simp
    unfold minimumWidth
    rw [if_neg (by simp [hsg]), if_neg (by rw [hneg]; simp), if_neg (by rw [hiz]; simp)]
    have hdrop2 : dropTopZeroWords r.data_01.length r.data_01 = l := by
      rw [hdB, List.length_append, List.length_singleton]
      exact dropTopZeroWords_concat_zero l htop l.length
    rw [hdrop2]
    obtain ⟨x, xs, hxl⟩ : ∃ x xs, l = x :: xs := by
      cases l with
      | nil => exact absurd rfl hlne
      | cons x xs => exact ⟨x, xs, rfl⟩
    rw [hxl]
    show some (shrinkXz { data_01 := (if lz ((x :: xs).getLastD 0) == 0 then (x :: xs) ++ [0] else (x :: xs)), data_xz := r.data_xz, size := (64 - lz ((if lz ((x :: xs).getLastD 0) == 0 then (x :: xs) ++ [0] else (x :: xs)).getLastD 0) + 1) + ((if lz ((x :: xs).getLastD 0) == 0 then (x :: xs) ++ [0] else (x :: xs)).length - 1) * 64, signed := r.signed }) = some r
    rw [← hxl, hlz, if_pos rfl, ← hdB, ← hsz, prim_update_eta r _ _ rfl rfl, hshr]
  · -- no push: the top word keeps its set bit below position 63
    have hlzb : (lz (l.getLastD 0) == 0) = false := by
      cases hb : (lz (l.getLastD 0) == 0)
      · rfl
      · exact absurd hb hlz
    have hdA : r.data_01 = l := by
      rw [hd, hlzb]
      simp
    have hlzpos : 1 ≤ lz (r.data_01.getLastD 0) := by
      rw [hdA]
      have := beq_eq_false_iff_ne.mp hlzb
      omega
    have hlen : 1 ≤ r.data_01.length := by
      rw [hdA]
      have := List.length_pos.mpr hlne
      omega
    have hiz : is_zero r = false := by
      apply is_zero_false_of_nonzero r
      refine ⟨l.getLastD 0, ?_, htop0⟩
      rw [hdA]
      exact getLastD_mem l hlne 0
    have hmsb : is_set_msb_01 r = false := by
      unfold is_set_msb_01
      have h1 : r.size - (r.data_01.length - 1) * 64 =
          64 - lz (r.data_01.getLastD 0) + 1 := by omega
      rw [h1]
      simp only [beq_eq_false_iff_ne, ne_eq]
      omega
    have hneg : is_negative r = false := by
      cases hc : contains_xz r with
      | true => exact is_negative_contains r hc
      | false =>
        rw [is_negative_char r hc hlen, hmsb]
        simp
    unfold minimumWidth
    rw [if_neg (by simp [hsg]), if_neg (by rw [hneg]; simp), if_neg (by rw [hiz]; simp)]
    have hdrop2 : dropTopZeroWords r.data_01.length r.data_01 = l := by
      rw [hdA]
      exact dropTopZeroWords_of_top_ne l.length l htop
    rw [hdrop2]
    obtain ⟨x, xs, hxl⟩ : ∃ x xs, l = x :: xs := by
      cases l with
      | nil => exact absurd rfl hlne
      | cons x xs => exact ⟨x, xs, rfl⟩
    rw [hxl]
    show some (shrinkXz { data_01 := (if lz ((x :: xs).getLastD 0) == 0 then (x :: xs) ++ [0] else (x :: xs)), data_xz := r.data_xz, size := (64 - lz ((if lz ((x :: xs).getLastD 0) == 0 then (x :: xs) ++ [0] else (x :: xs)).getLastD 0) + 1) + ((if lz ((x :: xs).getLastD 0) == 0 then (x :: xs) ++ [0] else (x :: xs)).length - 1) * 64, signed := r.signed }) = some r
    rw [← hxl, hlzb]
    simp only [Bool.false_eq_true, if_false]
    rw [← hdA, ← hsz, prim_update_eta r _ _ rfl rfl, hshr]

/-- Second application on a canonicalised negative value (`tf` is the
top-word-first vector returned by the first `negStrip`). -/
theorem minimumWidth_negative_fix (r : Prim) (tf : List Nat) (hsg : r.signed = true)
    (hcx : contains_xz r = false) (hd : r.data_01 = tf.reverse) (htfne : tf ≠ [])
    (hsz : r.size = 64 * (tf.length - 1) + bitLen (tf.headD 0))
    (hid : negStrip tf r.size = some (tf, r.size))
    (hshr : shrinkXz r = r) :
    minimumWidth r = some r := by
  have hlen : 1 ≤ r.data_01.length := by
    rw [hd, List.length_reverse]
    have := List.length_pos.mpr htfne
    omega
  have hrevtf : r.data_01.reverse = tf := by
    rw [hd, List.reverse_reverse]
  have hrlen : r.data_01.length = tf.length := by
    rw [hd, List.length_reverse]
  have hrtop : r.data_01.getLastD 0 = tf.headD 0 := by
    rw [getLastD_eq_reverse_headD, hrevtf]
  have hmsb : is_set_msb_01 r = true := by
    unfold is_set_msb_01
    rw [hrtop, hrlen]
    have h1 : r.size - (tf.length - 1) * 64 = bitLen (tf.headD 0) := by omega
    rw [h1]
    unfold lz
    exact beq_self_eq_true _
  have hneg : is_negative r = true := by
    rw [is_negative_char r hcx hlen, hsg, hmsb]
    rfl
  unfold minimumWidth
  rw [if_neg (by simp [hsg]), if_pos hneg, hrevtf, hid]
  show some (shrinkXz
    { data_01 := tf.reverse, data_xz := r.data_xz,
      size := r.size, signed := r.signed }) = some r
  rw [← hd, prim_update_eta r _ _ rfl rfl, hshr]

/-- A defined `_minimum_width` result is a fixed point of `_minimum_width`. -/
theorem minimumWidth_fix (v : Prim) (hwf : wf v) (r : Prim)
    (h : minimumWidth v = some r) : minimumWidth r = some r := by
  obtain ⟨hs1, hlen, hbnd, hvval, hxzwf⟩ := hwf
  have hLpos : 1 ≤ v.data_01.length := by
    rw [hlen]
    omega
  have hvne : v.data_01 ≠ [] := by
    intro h0
    rw [h0] at hLpos
    simp at hLpos
  unfold minimumWidth at h
  by_cases hsg : v.signed = false
  · rw [if_pos hsg] at h
    by_cases hz : is_zero v = true
    · rw [if_pos hz] at h
      have hinj := Option.some.inj h
      subst hinj
      exact minimumWidth_zero_fix v (contains_xz_of_is_zero v hz)
    · rw [if_neg hz] at h
      cases hdrop : dropTopZeroWords v.data_01.length v.data_01 with
      | nil =>
        rw [hdrop] at h
        exact absurd h (by simp)
      | cons x xs =>
        rw [hdrop] at h
        have htopne : (x :: xs).getLastD 1 ≠ 0 := by
          rcases dropTopZeroWords_top v.data_01.length v.data_01 (le_refl _) with h0 | h0
          · rw [hdrop] at h0
            exact absurd h0 (by simp)
          · rw [hdrop] at h0
            exact h0
        have hinj := Option.some.inj h
        subst hinj
        obtain ⟨hdf, hszf, hsgf⟩ := shrinkXz_fields { v with data_01 := x :: xs, size := (64 - lz ((x :: xs).getLastD 0)) + ((x :: xs).length - 1) * 64 }
        apply minimumWidth_unsigned_fix
        · rw [hsgf]
          exact hsg
        · rw [hdf]
          simp
        · rw [hdf]
          exact htopne
        · rw [hszf, hdf]
        · exact shrinkXz_shrinkXz _
  · have hsgt : v.signed = true := by
      cases hb : v.signed
      · exact absurd hb hsg
      · rfl
    rw [if_neg hsg] at h
    by_cases hneg : is_negative v = true
    · rw [if_pos hneg] at h
      have hcx : contains_xz v = false := by
        cases hc : contains_xz v
        · rfl
        · rw [is_negative_contains v hc] at hneg
          exact absurd hneg (by simp)
      have hmsb : is_set_msb_01 v = true := by
        rw [is_negative_char v hcx hLpos, hsgt] at hneg
        simpa using hneg
      have htopmem : v.data_01.getLastD 0 ∈ v.data_01 := getLastD_mem _ hvne 0
      have htopb : v.data_01.getLastD 0 < 2 ^ 64 := hbnd _ htopmem
      have hbl64 : bitLen (v.data_01.getLastD 0) ≤ 64 := bitLen_le htopb
      have hk : bitLen (v.data_01.getLastD 0) = v.size - (v.data_01.length - 1) * 64 := by
        unfold is_set_msb_01 at hmsb
        simp only [beq_iff_eq] at hmsb
        unfold lz at hmsb
        omega
      have htop0 : v.data_01.getLastD 0 ≠ 0 := by
        intro h0
        rw [h0, bitLen_zero] at hk
        omega
      have hrevb : ∀ x ∈ v.data_01.reverse, x < 2 ^ 64 := by
        intro x hx
        exact hbnd x (List.mem_reverse.mp hx)
      have hrevne : v.data_01.reverse ≠ [] := by
        simpa using hvne
      have hhead : v.data_01.reverse.headD 0 = v.data_01.getLastD 0 :=
        (getLastD_eq_reverse_headD _ _).symm
      have hinv2 : v.data_01.reverse ≠ [] → v.data_01.reverse.headD 0 ≠ 0 ∧
          v.size = 64 * (v.data_01.reverse.length - 1) +
            bitLen (v.data_01.reverse.headD 0) := by
        intro _
        rw [hhead, List.length_reverse]
        exact ⟨htop0, by omega⟩
      cases hns : negStrip v.data_01.reverse v.size with
      | none =>
        rw [hns] at h
        exact absurd h (by simp)
      | some p =>
        rcases p with ⟨tf, s2⟩
        rw [hns] at h
        have hinj := Option.some.inj h
        subst hinj
        obtain ⟨hid, hcl⟩ := negStrip_spec v.data_01.reverse v.size hrevb hinv2 tf s2 hns
        obtain ⟨htfne, hs2eq, hth0⟩ := hcl hrevne
        obtain ⟨hdf, hszf, hsgf⟩ := shrinkXz_fields { v with data_01 := tf.reverse, size := s2 }
        apply minimumWidth_negative_fix _ tf
        · rw [hsgf]
          exact hsgt
        · apply shrinkXz_contains
          exact hcx
        · rw [hdf]
        · exact htfne
        · rw [hszf]
          exact hs2eq
        · rw [hszf]
          exact hid
        · exact shrinkXz_shrinkXz _
    · rw [if_neg hneg] at h
      by_cases hz : is_zero v = true
      · rw [if_pos hz] at h
        have hinj := Option.some.inj h
        subst hinj
        exact minimumWidth_zero_fix v (contains_xz_of_is_zero v hz)
      · rw [if_neg hz] at h
        cases hdrop : dropTopZeroWords v.data_01.length v.data_01 with
        | nil =>
          rw [hdrop] at h
          exact absurd h (by simp)
        | cons x xs =>
          rw [hdrop] at h
          have htopne : (x :: xs).getLastD 1 ≠ 0 := by
            rcases dropTopZeroWords_top v.data_01.length v.data_01 (le_refl _)
              with h0 | h0
            · rw [hdrop] at h0
              exact absurd h0 (by simp)
            · rw [hdrop] at h0
              exact h0
          have hinj := Option.some.inj h
          subst hinj
          obtain ⟨hdf, hszf, hsgf⟩ := shrinkXz_fields { v with data_01 := (if lz ((x :: xs).getLastD 0) == 0 then (x :: xs) ++ [0] else (x :: xs)), size := (64 - lz ((if lz ((x :: xs).getLastD 0) == 0 then (x :: xs) ++ [0] else (x :: xs)).getLastD 0) + 1) + ((if lz ((x :: xs).getLastD 0) == 0 then (x :: xs) ++ [0] else (x :: xs)).length - 1) * 64 }
          apply minimumWidth_signed_pos_fix _ (x :: xs)
          · rw [hsgf]
            exact hsgt
          · simp
          · exact htopne
          · rw [hdf]
          · rw [hszf, hdf]
          · exact shrinkXz_shrinkXz _

/-- C8: on any value satisfying the at-rest invariants, `_minimum_width` is
idempotent — a second application returns the first result unchanged (and a
panicking first application leaves the composite equally undefined). -/
theorem C8_minimum_width_idempotent (v : Prim) (hwf : wf v) :
    (minimumWidth v).bind minimumWidth = minimumWidth v := by
  cases h : minimumWidth v with
  | none => rfl
  | some r => exact minimumWidth_fix v hwf r h

set_option maxRecDepth 100000 in
/-- C8 witness: the signed 64-bit value 5 (its canonical form is 4 bits). -/
theorem C8_witness :
    wf (⟨[5], none, 64, true⟩ : Prim) ∧
    (minimumWidth ⟨[5], none, 64, true⟩).bind minimumWidth =
      minimumWidth ⟨[5], none, 64, true⟩ :=
  ⟨by decide, C8_minimum_width_idempotent ⟨[5], none, 64, true⟩ (by decide)⟩

end SvData
